import Mathlib

/-!
Verification of the `dir-tree-scanner` repository: a shallow embedding in
Lean 4 of the data model (`state.rs`), the state store (`ScanState::save`,
`ScanState::load`), the incremental scan engine (`scanner.rs::scan`,
`scan_directory`) and the tree renderer (`tree.rs::render_tree`), together
with proofs of the specification's testable properties.

Modelling conventions:
* Rust machine integers become `Nat`/`Int` (sizes are non-negative,
  timestamps are signed epoch seconds; no arithmetic in the source can
  overflow the modelled ranges in a way any claim depends on).
* `std::collections::HashMap<String, DirEntry>` is modelled as an
  association list `List (String × DirEntry)` with first-match lookup,
  in-place replacement on insert, and no duplicate keys produced by any
  modelled operation.  Iteration order of the map corresponds to list
  order; properties that must not depend on it are proved for arbitrary
  permutations of the list.
* The filesystem tree walked by `scan` is modelled as an inductive tree
  of directories carrying their own mtime, their immediate regular files,
  and their named subdirectories.
* Fallible operations return `Option` / a sum-like outcome type, exactly
  mirroring the source's `Result` / enum returns.
-/

namespace Fsscan

/-- One indexed file, from `state.rs` (`pub struct FileEntry`): filename,
size in bytes, ctime and mtime as signed epoch seconds. -/
structure FileEntry where
  filename : String
  size : Nat
  ctime : Int
  mtime : Int
deriving DecidableEq, Repr

/-- One indexed directory, from `state.rs` (`pub struct DirEntry`): the
directory inode's own mtime at last scan, plus its file records. -/
structure DirEntry where
  dir_mtime : Int
  files : List FileEntry
deriving DecidableEq, Repr

/-- The aggregate scan index, from `state.rs` (`pub struct ScanState`): a
map from absolute directory path (string form) to `DirEntry`, modelled as
an association list standing for the source's `HashMap`. -/
structure ScanState where
  dirs : List (String × DirEntry)
deriving DecidableEq, Repr

/-- First-match lookup in the association-list model of `HashMap::get`. -/
def hmGet {β : Type} : List (String × β) → String → Option β
  | [], _ => none
  | (k', v) :: rest, k => if k' = k then some v else hmGet rest k

/-- `HashMap::insert` model: replace the value at an existing key in
place, otherwise append the new binding. -/
def hmInsert {β : Type} : List (String × β) → String → β → List (String × β)
  | [], k, v => [(k, v)]
  | (k', w) :: rest, k, v =>
    if k' = k then (k, v) :: rest else (k', w) :: hmInsert rest k v

/-- `HashMap::remove` model: drop every binding at the key. -/
def hmRemove {β : Type} (m : List (String × β)) (k : String) :
    List (String × β) :=
  m.filter (fun p => p.1 ≠ k)

/-- The key list of the map model (`HashMap::keys`). -/
def hmKeys {β : Type} (m : List (String × β)) : List String :=
  m.map Prod.fst

/-- Result of attempting to load a state file, from `state.rs`
(`pub enum LoadOutcome`). -/
inductive LoadOutcome where
  | Loaded (s : ScanState)
  | NotFound
  | Invalid (reason : String)
deriving DecidableEq, Repr

/-- Magic bytes identifying an fsscan state file: `b"FSSN"`. -/
def MAGIC : List Nat := [70, 83, 83, 78]

/-- Current state file format version. -/
def VERSION : Nat := 2

/-- Size of the header: 4 bytes magic + 1 byte version. -/
def HEADER_SIZE : Nat := 5

/-! ### Serialization codec

Modelled from the spec: the source serializes with the external `rkyv`
crate, whose code is not part of this repository.  Per §4.1 the payload is
"the raw serialized state" and deserialization of a corrupt payload fails;
the stand-in below is a concrete executable byte codec for `ScanState`
with exactly that contract (self-delimiting, total decode returning
`Option`, round-trip exact). -/

/-- Variable-length base-128 encoding of a natural number (stand-in
primitive for the serializer). -/
def encNat (n : Nat) : List Nat :=
  if h : n < 128 then [n] else (128 + n % 128) :: encNat (n / 128)
termination_by n
decreasing_by
  exact Nat.div_lt_self (by omega) (by omega)

/-- Decoder for `encNat`; returns the value and the remaining bytes. -/
def decNat : List Nat → Option (Nat × List Nat)
  | [] => none
  | b :: rest =>
    if b < 128 then some (b, rest)
    else
      match decNat rest with
      | some (m, rest') => some ((b - 128) + 128 * m, rest')
      | none => none

/-- Sign-tagged integer encoding (stand-in primitive). -/
def encInt (i : Int) : List Nat :=
  if i < 0 then 1 :: encNat (-(i + 1)).toNat else 0 :: encNat i.toNat

/-- Decoder for `encInt`. -/
def decInt : List Nat → Option (Int × List Nat)
  | [] => none
  | b :: rest =>
    match decNat rest with
    | some (m, rest') =>
      if b = 1 then some (-(m : Int) - 1, rest')
      else if b = 0 then some ((m : Int), rest')
      else none
    | none => none

/-- Character-sequence encoding: each scalar value as a varint. -/
def encChars (cs : List Char) : List Nat :=
  (cs.map (fun c => encNat c.toNat)).flatten

/-- Count-indexed decoder for `encChars`. -/
def decChars : Nat → List Nat → Option (List Char × List Nat)
  | 0, r => some ([], r)
  | n + 1, r =>
    (decNat r).bind fun p =>
    (decChars n p.2).bind fun q =>
    some (Char.ofNat p.1 :: q.1, q.2)

/-- String encoding: length then characters. -/
def encString (s : String) : List Nat :=
  encNat s.data.length ++ encChars s.data

/-- Decoder for `encString`. -/
def decString (bytes : List Nat) : Option (String × List Nat) :=
  (decNat bytes).bind fun p =>
  (decChars p.1 p.2).bind fun q =>
  some (⟨q.1⟩, q.2)

/-- Length-prefixed list encoding. -/
def encList {α : Type} (enc : α → List Nat) (l : List α) : List Nat :=
  encNat l.length ++ (l.map enc).flatten

/-- Count-indexed list decoder. -/
def decListN {α : Type} (dec : List Nat → Option (α × List Nat)) :
    Nat → List Nat → Option (List α × List Nat)
  | 0, r => some ([], r)
  | n + 1, r =>
    (dec r).bind fun p =>
    (decListN dec n p.2).bind fun q =>
    some (p.1 :: q.1, q.2)

/-- Decoder for `encList`. -/
def decList {α : Type} (dec : List Nat → Option (α × List Nat))
    (bytes : List Nat) : Option (List α × List Nat) :=
  (decNat bytes).bind fun p => decListN dec p.1 p.2

/-- Serialized form of one `FileEntry`. -/
def encFileEntry (f : FileEntry) : List Nat :=
  encString f.filename ++ encNat f.size ++ encInt f.ctime ++ encInt f.mtime

/-- Decoder for `encFileEntry`. -/
def decFileEntry (bytes : List Nat) : Option (FileEntry × List Nat) :=
  (decString bytes).bind fun p1 =>
  (decNat p1.2).bind fun p2 =>
  (decInt p2.2).bind fun p3 =>
  (decInt p3.2).bind fun p4 =>
  some (⟨p1.1, p2.1, p3.1, p4.1⟩, p4.2)

/-- Serialized form of one `DirEntry`. -/
def encDirEntry (d : DirEntry) : List Nat :=
  encInt d.dir_mtime ++ encList encFileEntry d.files

/-- Decoder for `encDirEntry`. -/
def decDirEntry (bytes : List Nat) : Option (DirEntry × List Nat) :=
  (decInt bytes).bind fun p1 =>
  (decList decFileEntry p1.2).bind fun p2 =>
  some (⟨p1.1, p2.1⟩, p2.2)

/-- Serialized form of one map binding. -/
def encPair (p : String × DirEntry) : List Nat :=
  encString p.1 ++ encDirEntry p.2

/-- Decoder for `encPair`. -/
def decPair (bytes : List Nat) : Option ((String × DirEntry) × List Nat) :=
  (decString bytes).bind fun p1 =>
  (decDirEntry p1.2).bind fun p2 =>
  some ((p1.1, p2.1), p2.2)

/-- Modelled from the spec: `rkyv::to_bytes` on a `ScanState` — the raw
serialized state as a byte sequence. -/
def serialize (s : ScanState) : List Nat :=
  encList encPair s.dirs

/-- Modelled from the spec: `rkyv::from_bytes` — deserialization fails
(structural corruption) unless the bytes are exactly one serialized
state. -/
def deserialize (bytes : List Nat) : Option ScanState :=
  match decList decPair bytes with
  | some (l, []) => some ⟨l⟩
  | _ => none

/-- Modelled from the spec: the brotli compressor used by `save` — a
lossless general-purpose byte compressor.  The stand-in prefixes the
payload with its length. -/
def compress (payload : List Nat) : List Nat :=
  encNat payload.length ++ payload

/-- Modelled from the spec: brotli decompression as used by `load`; fails
on input that is not a valid compressed stream. -/
def decompress (data : List Nat) : Option (List Nat) :=
  match decNat data with
  | some (n, rest) => if rest.length = n then some rest else none
  | none => none

/-- Shared tail of `ScanState::load` (`state.rs` lines 81-84): deserialize
the payload, classifying failure as corrupt data. -/
def loadPayload (bytes : List Nat) : LoadOutcome :=
  match deserialize bytes with
  | some s => LoadOutcome.Loaded s
  | none => LoadOutcome.Invalid ("corrupt data")

/-- `ScanState::load` (`state.rs` lines 45-85) applied to the bytes of an
existing state file: header length check, magic check, version dispatch
(1 = raw payload, 2 = compressed payload), then deserialization. -/
def loadBytes (data : List Nat) : LoadOutcome :=
  if data.length < HEADER_SIZE then LoadOutcome.Invalid ("truncated state file")
  else if data.take 4 ≠ MAGIC then
    LoadOutcome.Invalid ("not a state file (wrong magic)")
  else
    let version := data.getD 4 0
    let payload := data.drop HEADER_SIZE
    if version = 1 then loadPayload payload
    else if version = 2 then
      match decompress payload with
      | some d => loadPayload d
      | none => LoadOutcome.Invalid ("decompression error")
    else LoadOutcome.Invalid ("unsupported version " ++ toString version)

/-- Result of `fs::read` on the state path, as `load` distinguishes it:
file contents, file-not-found, or another I/O error with its message. -/
inductive FsReadResult where
  | ok (data : List Nat)
  | notFound
  | ioError (msg : String)
deriving DecidableEq, Repr

/-- `ScanState::load` including the `fs::read` outcome dispatch
(`state.rs` lines 46-50). -/
def load : FsReadResult → LoadOutcome
  | FsReadResult.ok data => loadBytes data
  | FsReadResult.notFound => LoadOutcome.NotFound
  | FsReadResult.ioError e => LoadOutcome.Invalid ("read error: " ++ e)

/-- `ScanState::save` (`state.rs` lines 87-109): the byte content written
to the state file — magic, version byte, then the compressed serialized
state.  (The hidden-temp-file atomic rename concerns the filesystem, not
the produced bytes, and is not modelled.) -/
def save (s : ScanState) : List Nat :=
  MAGIC ++ VERSION :: compress (serialize s)

/-! ### Codec round-trip lemmas -/

/-- Decoding inverts the varint encoder on any byte stream. -/
theorem decNat_encNat (n : Nat) : ∀ r, decNat (encNat n ++ r) = some (n, r) := by
  induction n using encNat.induct with
  | case1 n h =>
    intro r
    rw [encNat]
    simp [h, decNat]
  | case2 n h ih =>
    intro r
    rw [encNat]
    simp only [dif_neg h]
    simp only [List.cons_append, decNat, List.append_eq]
    rw [if_neg (by omega)]
    rw [ih r]
    simp
    omega

/-- Decoding inverts the integer encoder. -/
theorem decInt_encInt (i : Int) (r : List Nat) :
    decInt (encInt i ++ r) = some (i, r) := by
  by_cases h : i < 0
  · simp [encInt, decInt, decNat_encNat, h]
    omega
  · simp [encInt, decInt, decNat_encNat, h]
    omega

/-- Decoding inverts the character-sequence encoder. -/
theorem decChars_encChars (cs : List Char) :
    ∀ r, decChars cs.length (encChars cs ++ r) = some (cs, r) := by
  induction cs with
  | nil => intro r; simp [encChars, decChars]
  | cons c cs ih =>
    intro r
    have ih' := ih r
    simp only [encChars] at ih'
    simp [encChars, decChars, List.append_assoc, decNat_encNat, ih',
      Char.ofNat_toNat]

/-- Decoding inverts the string encoder. -/
theorem decString_encString (s : String) (r : List Nat) :
    decString (encString s ++ r) = some (s, r) := by
  have h := decChars_encChars s.data r
  rw [show s.data.length = s.length from rfl] at h
  simp [encString, decString, List.append_assoc, decNat_encNat, h]

/-- Decoding inverts the count-indexed list encoder, given an inverse
element codec. -/
theorem decListN_flatten {α : Type} (dec : List Nat → Option (α × List Nat))
    (enc : α → List Nat) (hdec : ∀ a r, dec (enc a ++ r) = some (a, r))
    (l : List α) : ∀ r, decListN dec l.length ((l.map enc).flatten ++ r) = some (l, r) := by
  induction l with
  | nil => intro r; simp [decListN]
  | cons a l ih =>
    intro r
    simp [decListN, List.append_assoc, hdec, ih]

/-- Decoding inverts the list encoder. -/
theorem decList_encList {α : Type} (dec : List Nat → Option (α × List Nat))
    (enc : α → List Nat) (hdec : ∀ a r, dec (enc a ++ r) = some (a, r))
    (l : List α) (r : List Nat) :
    decList dec (encList enc l ++ r) = some (l, r) := by
  simp [encList, decList, List.append_assoc, decNat_encNat]
  exact decListN_flatten dec enc hdec l r

/-- Decoding inverts the file-entry encoder. -/
theorem decFileEntry_encFileEntry (f : FileEntry) (r : List Nat) :
    decFileEntry (encFileEntry f ++ r) = some (f, r) := by
  simp [encFileEntry, decFileEntry, List.append_assoc, decString_encString,
    decNat_encNat, decInt_encInt]

/-- Decoding inverts the directory-entry encoder. -/
theorem decDirEntry_encDirEntry (d : DirEntry) (r : List Nat) :
    decDirEntry (encDirEntry d ++ r) = some (d, r) := by
  simp [encDirEntry, decDirEntry, List.append_assoc, decInt_encInt,
    decList_encList decFileEntry encFileEntry decFileEntry_encFileEntry]

/-- Decoding inverts the binding encoder. -/
theorem decPair_encPair (p : String × DirEntry) (r : List Nat) :
    decPair (encPair p ++ r) = some (p, r) := by
  simp [encPair, decPair, List.append_assoc, decString_encString,
    decDirEntry_encDirEntry]

/-- Deserialization inverts serialization exactly. -/
theorem deserialize_serialize (s : ScanState) :
    deserialize (serialize s) = some s := by
  have h := decList_encList decPair encPair decPair_encPair s.dirs []
  rw [List.append_nil] at h
  simp [serialize, deserialize, h]

/-- Decompression inverts compression. -/
theorem decompress_compress (p : List Nat) :
    decompress (compress p) = some p := by
  simp [compress, decompress, decNat_encNat]

/-! ### State-store theorems -/

/-- A saved state file's bytes, spelled out: 70,83,83,78 is `b"FSSN"`. -/
theorem save_eq_cons (s : ScanState) :
    save s = 70 :: 83 :: 83 :: 78 :: 2 :: compress (serialize s) := by
  simp [save, MAGIC, VERSION]

/-- C1.  Round-trip of the state store: for every `ScanState`, including
the empty one, saving it and loading the resulting file contents yields
`Loaded` of a state equal to the original (same directory keys, same
`dir_mtime` per directory, same file lists with every field, in order). -/
theorem load_save_round_trip (s : ScanState) :
    load (FsReadResult.ok (save s)) = LoadOutcome.Loaded s := by
  rw [load, save_eq_cons]
  rw [loadBytes]
  simp only [List.length_cons, HEADER_SIZE, MAGIC]
  rw [if_neg (by omega)]
  rw [if_neg (by simp [List.take])]
  simp [List.getD, decompress_compress, loadPayload, deserialize_serialize]

/-- C7.  On-disk format: every file produced by `save` is the 4-byte magic
tag, the version byte 2, then the compressed serialized state; `load`
dispatches on the version byte, treating a version-1 payload as raw
serialized state and a version-2 payload as compressed, so legacy
version-1 files remain loadable. -/
theorem on_disk_format :
    (∀ s, save s = MAGIC ++ VERSION :: compress (serialize s))
  ∧ VERSION = 2
  ∧ (∀ p, loadBytes (MAGIC ++ 1 :: p) = loadPayload p)
  ∧ (∀ p, loadBytes (MAGIC ++ 2 :: p) =
      match decompress p with
      | some d => loadPayload d
      | none => LoadOutcome.Invalid ("decompression error"))
  ∧ (∀ s, loadBytes (MAGIC ++ 1 :: serialize s) = LoadOutcome.Loaded s) := by
  refine ⟨fun s => rfl, rfl, ?_, ?_, ?_⟩
  · intro p
    rw [show MAGIC ++ 1 :: p = 70 :: 83 :: 83 :: 78 :: 1 :: p by simp [MAGIC]]
    rw [loadBytes]
    simp only [List.length_cons, HEADER_SIZE, MAGIC]
    rw [if_neg (by omega)]
    rw [if_neg (by simp [List.take])]
    simp [List.getD]
  · intro p
    rw [show MAGIC ++ 2 :: p = 70 :: 83 :: 83 :: 78 :: 2 :: p by simp [MAGIC]]
    rw [loadBytes]
    simp only [List.length_cons, HEADER_SIZE, MAGIC]
    rw [if_neg (by omega)]
    rw [if_neg (by simp [List.take])]
    simp [List.getD]
  · intro s
    rw [show MAGIC ++ 1 :: serialize s = 70 :: 83 :: 83 :: 78 :: 1 :: serialize s by
      simp [MAGIC]]
    rw [loadBytes]
    simp only [List.length_cons, HEADER_SIZE, MAGIC]
    rw [if_neg (by omega)]
    rw [if_neg (by simp [List.take])]
    simp [List.getD, loadPayload, deserialize_serialize]

/-- The version-mismatch reason never collides with a fixed reason string
that does not start with the letter u. -/
theorem unsupported_reason_ne (x t : String) (h : t.data.head? ≠ some 'u') :
    "unsupported version " ++ x ≠ t := by
  intro he
  apply h
  rw [← he]
  rw [String.data_append]
  rfl

/-- C4.  Load totality and error classification: `load` always returns
exactly one of the three outcomes and never fails to return; a missing
file yields `NotFound`; each failure mode (truncated header, wrong magic,
unsupported version byte, decompression failure of a version-2 payload,
deserialization failure) yields `Invalid` with a distinct reason string. -/
theorem load_total_and_classified :
    (∀ fr, (∃ s, load fr = LoadOutcome.Loaded s) ∨ load fr = LoadOutcome.NotFound
        ∨ ∃ reason, load fr = LoadOutcome.Invalid reason)
  ∧ load FsReadResult.notFound = LoadOutcome.NotFound
  ∧ (∀ data : List Nat, data.length < HEADER_SIZE →
      loadBytes data = LoadOutcome.Invalid ("truncated state file"))
  ∧ (∀ data : List Nat, HEADER_SIZE ≤ data.length → data.take 4 ≠ MAGIC →
      loadBytes data = LoadOutcome.Invalid ("not a state file (wrong magic)"))
  ∧ (∀ data : List Nat, HEADER_SIZE ≤ data.length → data.take 4 = MAGIC →
      data.getD 4 0 ≠ 1 → data.getD 4 0 ≠ 2 →
      loadBytes data = LoadOutcome.Invalid ("unsupported version " ++ toString (data.getD 4 0)))
  ∧ (∀ data : List Nat, HEADER_SIZE ≤ data.length → data.take 4 = MAGIC →
      data.getD 4 0 = 2 → decompress (data.drop HEADER_SIZE) = none →
      loadBytes data = LoadOutcome.Invalid ("decompression error"))
  ∧ (∀ p, deserialize p = none → loadPayload p = LoadOutcome.Invalid ("corrupt data"))
  ∧ (∀ v : Nat, ("unsupported version " ++ toString v) ≠ "truncated state file"
      ∧ ("unsupported version " ++ toString v) ≠ "not a state file (wrong magic)"
      ∧ ("unsupported version " ++ toString v) ≠ "decompression error"
      ∧ ("unsupported version " ++ toString v) ≠ "corrupt data")
  ∧ ("truncated state file" : String) ≠ "not a state file (wrong magic)"
  ∧ ("truncated state file" : String) ≠ "decompression error"
  ∧ ("truncated state file" : String) ≠ "corrupt data"
  ∧ ("not a state file (wrong magic)" : String) ≠ "decompression error"
  ∧ ("not a state file (wrong magic)" : String) ≠ "corrupt data"
  ∧ ("decompression error" : String) ≠ "corrupt data" := by
  refine ⟨?_, rfl, ?_, ?_, ?_, ?_, ?_, ?_, by decide, by decide, by decide,
    by decide, by decide, by decide⟩
  · intro fr
    cases h : load fr with
    | Loaded s => exact Or.inl ⟨s, rfl⟩
    | NotFound => exact Or.inr (Or.inl rfl)
    | Invalid reason => exact Or.inr (Or.inr ⟨reason, rfl⟩)
  · intro data h
    rw [loadBytes, if_pos h]
  · intro data h5 hm
    rw [loadBytes, if_neg (by omega), if_pos hm]
  · intro data h5 hm hv1 hv2
    rw [loadBytes, if_neg (by omega), if_neg (by simp [hm])]
    simp only [if_neg hv1, if_neg hv2]
  · intro data h5 hm hv2 hdec
    rw [loadBytes, if_neg (by omega), if_neg (by simp [hm])]
    simp only [if_neg (by omega : ¬ data.getD 4 0 = 1), if_pos hv2, hdec]
  · intro p h
    rw [loadPayload, h]
  · intro v
    refine ⟨?_, ?_, ?_, ?_⟩ <;>
      exact unsupported_reason_ne (toString v) _ (by decide)

/-- Witness for C4: concrete inputs exercising each classification arm. -/
theorem load_total_and_classified_witness :
    loadBytes [0] = LoadOutcome.Invalid ("truncated state file")
  ∧ loadBytes [9, 9, 9, 9, 1, 0] = LoadOutcome.Invalid ("not a state file (wrong magic)")
  ∧ loadBytes [70, 83, 83, 78, 7] =
      LoadOutcome.Invalid ("unsupported version " ++ toString (([70, 83, 83, 78, 7] : List Nat).getD 4 0))
  ∧ loadBytes [70, 83, 83, 78, 2, 200] = LoadOutcome.Invalid ("decompression error")
  ∧ loadPayload [200] = LoadOutcome.Invalid ("corrupt data") := by
  refine ⟨?_, ?_, ?_, ?_, ?_⟩
  · exact load_total_and_classified.2.2.1 [0] (by decide)
  · exact load_total_and_classified.2.2.2.1 [9, 9, 9, 9, 1, 0] (by decide) (by decide)
  · exact load_total_and_classified.2.2.2.2.1 [70, 83, 83, 78, 7] (by decide)
      (by decide) (by decide) (by decide)
  · exact load_total_and_classified.2.2.2.2.2.1 [70, 83, 83, 78, 2, 200] (by decide)
      (by decide) (by decide) (by decide)
  · exact load_total_and_classified.2.2.2.2.2.2.1 [200] (by decide)

/-! ### Association-list map lemmas -/

theorem hmKeys_nil {β : Type} : hmKeys ([] : List (String × β)) = [] := rfl

theorem hmKeys_cons {β : Type} (p : String × β) (m : List (String × β)) :
    hmKeys (p :: m) = p.1 :: hmKeys m := rfl

/-- Lookup misses exactly the keys that are absent. -/
theorem hmGet_eq_none_iff {β : Type} (m : List (String × β)) (k : String) :
    hmGet m k = none ↔ k ∉ hmKeys m := by
  induction m with
  | nil => simp [hmGet, hmKeys_nil]
  | cons p rest ih =>
    obtain ⟨k', v⟩ := p
    rw [hmKeys_cons]
    by_cases h : k' = k
    · subst h
      simp [hmGet]
    · simp only [hmGet, if_neg h, ih, List.mem_cons]
      constructor
      · intro h2 h3
        rcases h3 with h3 | h3
        · exact h h3.symm
        · exact h2 h3
      · intro h2 h3
        exact h2 (Or.inr h3)

/-- Lookup hits exactly the keys that are present. -/
theorem hmGet_isSome_iff {β : Type} (m : List (String × β)) (k : String) :
    (hmGet m k).isSome ↔ k ∈ hmKeys m := by
  rw [Option.isSome_iff_ne_none, not_iff_comm, ← hmGet_eq_none_iff]

/-- Insert then look up the same key. -/
theorem hmGet_insert_self {β : Type} (m : List (String × β)) (k : String) (v : β) :
    hmGet (hmInsert m k v) k = some v := by
  induction m with
  | nil => simp [hmInsert, hmGet]
  | cons p rest ih =>
    obtain ⟨k', w⟩ := p
    by_cases h : k' = k <;> simp [hmInsert, hmGet, h, ih]

/-- Insert leaves lookups at other keys unchanged. -/
theorem hmGet_insert_ne {β : Type} (m : List (String × β)) (k k' : String) (v : β)
    (h : k' ≠ k) : hmGet (hmInsert m k v) k' = hmGet m k' := by
  have h' : ¬ k = k' := fun he => h he.symm
  induction m with
  | nil => simp [hmInsert, hmGet, h']
  | cons p rest ih =>
    obtain ⟨k'', w⟩ := p
    by_cases h2 : k'' = k
    · subst h2
      simp [hmInsert, hmGet, h']
    · simp [hmInsert, hmGet, h2, ih]

/-- Inserting at a present key does not change the key list. -/
theorem hmKeys_insert_mem {β : Type} (m : List (String × β)) (k : String) (v : β)
    (h : k ∈ hmKeys m) : hmKeys (hmInsert m k v) = hmKeys m := by
  induction m with
  | nil => simp [hmKeys_nil] at h
  | cons p rest ih =>
    obtain ⟨k', w⟩ := p
    rw [hmKeys_cons, List.mem_cons] at h
    by_cases h2 : k' = k
    · subst h2
      simp [hmInsert, hmKeys_cons]
    · rcases h with h | h
      · exact absurd h.symm h2
      · simp only [hmInsert, if_neg h2, hmKeys_cons]
        rw [ih h]

/-- Inserting at an absent key appends it to the key list. -/
theorem hmKeys_insert_notMem {β : Type} (m : List (String × β)) (k : String) (v : β)
    (h : k ∉ hmKeys m) : hmKeys (hmInsert m k v) = hmKeys m ++ [k] := by
  induction m with
  | nil => simp [hmInsert, hmKeys]
  | cons p rest ih =>
    obtain ⟨k', w⟩ := p
    rw [hmKeys_cons, List.mem_cons] at h
    push_neg at h
    have hne : ¬ k' = k := fun he => h.1 he.symm
    simp only [hmInsert, if_neg hne, hmKeys_cons]
    rw [ih h.2]
    simp

/-- Key membership after insert. -/
theorem mem_hmKeys_insert {β : Type} (m : List (String × β)) (k k' : String) (v : β) :
    k' ∈ hmKeys (hmInsert m k v) ↔ k' ∈ hmKeys m ∨ k' = k := by
  by_cases h : k ∈ hmKeys m
  · rw [hmKeys_insert_mem m k v h]
    constructor
    · exact Or.inl
    · rintro (h2 | rfl) <;> [exact h2; exact h]
  · rw [hmKeys_insert_notMem m k v h]
    simp

/-- Insert preserves key distinctness. -/
theorem hmKeys_insert_nodup {β : Type} (m : List (String × β)) (k : String) (v : β)
    (h : (hmKeys m).Nodup) : (hmKeys (hmInsert m k v)).Nodup := by
  by_cases h2 : k ∈ hmKeys m
  · rwa [hmKeys_insert_mem m k v h2]
  · rw [hmKeys_insert_notMem m k v h2]
    simp [List.nodup_append, h, h2]

/-- Re-inserting the value already stored is the identity (on maps with
distinct keys). -/
theorem hmInsert_same {β : Type} (m : List (String × β)) (k : String) (v : β)
    (h : hmGet m k = some v) : hmInsert m k v = m := by
  induction m with
  | nil => simp [hmGet] at h
  | cons p rest ih =>
    obtain ⟨k', w⟩ := p
    by_cases h2 : k' = k
    · subst h2
      simp [hmGet] at h
      simp [hmInsert, h]
    · simp only [hmGet, if_neg h2] at h
      simp [hmInsert, h2, ih h]

/-- Two inserts at the same key collapse to the last one. -/
theorem hmInsert_insert {β : Type} (m : List (String × β)) (k : String) (a b : β) :
    hmInsert (hmInsert m k a) k b = hmInsert m k b := by
  induction m with
  | nil => simp [hmInsert]
  | cons p rest ih =>
    obtain ⟨k', w⟩ := p
    by_cases h : k' = k <;> simp [hmInsert, h, ih]

/-! ### Scan engine

Embedding of `scanner.rs`.  The `walkdir` iterator (preorder depth-first
walk with `filter_entry` pruning excluded directory names, yielding only
directory entries to the loop body because files are skipped by the
`is_dir` check) is modelled by flattening the tree into the list of
visited directories; the source's `for entry in walker` loop is the fold
of `stepVisit` over that list.  `sort_by_file_name` fixes only the order
in which siblings are visited; sibling order affects no modelled output
(the state is keyed, the counters are sums, and the seen set is a set),
so the embedding walks siblings in stored order. -/

/-- A directory tree as the scanner sees it: the directory's own mtime,
its immediate regular files, and its named subdirectories. -/
inductive FsTree where
  | node (mtime : Int) (files : List FileEntry) (subdirs : List (String × FsTree))
deriving Repr

/-- `Path::join` for the normal (no trailing slash) paths the scanner
builds. -/
def pathJoin (p n : String) : String := p ++ "/" ++ n

/-- Counters returned by `scan` (`scanner.rs::ScanStats`). -/
structure ScanStats where
  dirs_cached : Nat
  dirs_scanned : Nat
  dirs_removed : Nat
deriving DecidableEq, Repr

/-! ### Byte-wise string order

Rust's `String::cmp` compares UTF-8 byte sequences lexicographically; on
valid UTF-8 that order coincides with lexicographic order on Unicode
scalar values, embedded here as an executable comparison on character
lists. -/

/-- Lexicographic less-or-equal on scalar values (Rust `String::cmp`
producing `Less` or `Equal`). -/
def charsLe : List Char → List Char → Bool
  | [], _ => true
  | _ :: _, [] => false
  | a :: as, b :: bs =>
    if a.toNat < b.toNat then true
    else if a.toNat = b.toNat then charsLe as bs
    else false

/-- Lexicographic strict order on scalar values (Rust `Ord` producing
`Less`). -/
def charsLt : List Char → List Char → Bool
  | [], [] => false
  | [], _ :: _ => true
  | _ :: _, [] => false
  | a :: as, b :: bs =>
    if a.toNat < b.toNat then true
    else if a.toNat = b.toNat then charsLt as bs
    else false

theorem charsLe_cons_iff (a b : Char) (as bs : List Char) :
    charsLe (a :: as) (b :: bs) = true ↔
      a.toNat < b.toNat ∨ (a.toNat = b.toNat ∧ charsLe as bs = true) := by
  simp only [charsLe]
  by_cases h1 : a.toNat < b.toNat
  · simp [h1]
  · by_cases h2 : a.toNat = b.toNat <;> simp [h1, h2]

theorem charsLt_cons_iff (a b : Char) (as bs : List Char) :
    charsLt (a :: as) (b :: bs) = true ↔
      a.toNat < b.toNat ∨ (a.toNat = b.toNat ∧ charsLt as bs = true) := by
  simp only [charsLt]
  by_cases h1 : a.toNat < b.toNat
  · simp [h1]
  · by_cases h2 : a.toNat = b.toNat <;> simp [h1, h2]

theorem charsLe_total : ∀ as bs : List Char,
    charsLe as bs = true ∨ charsLe bs as = true := by
  intro as
  induction as with
  | nil => intro bs; exact Or.inl rfl
  | cons a as ih =>
    intro bs
    cases bs with
    | nil => exact Or.inr rfl
    | cons b bs =>
      rw [charsLe_cons_iff, charsLe_cons_iff]
      rcases Nat.lt_trichotomy a.toNat b.toNat with h | h | h
      · exact Or.inl (Or.inl h)
      · rcases ih bs with hh | hh
        · exact Or.inl (Or.inr ⟨h, hh⟩)
        · exact Or.inr (Or.inr ⟨h.symm, hh⟩)
      · exact Or.inr (Or.inl h)

theorem charsLe_trans : ∀ as bs cs : List Char, charsLe as bs = true →
    charsLe bs cs = true → charsLe as cs = true := by
  intro as
  induction as with
  | nil => intros; rfl
  | cons a as ih =>
    intro bs cs h1 h2
    cases bs with
    | nil => simp [charsLe] at h1
    | cons b bs =>
      cases cs with
      | nil => simp [charsLe] at h2
      | cons c cs =>
        rw [charsLe_cons_iff] at h1 h2 ⊢
        rcases h1 with h1 | ⟨h1, h1b⟩ <;> rcases h2 with h2 | ⟨h2, h2b⟩
        · exact Or.inl (by omega)
        · exact Or.inl (by omega)
        · exact Or.inl (by omega)
        · exact Or.inr ⟨by omega, ih bs cs h1b h2b⟩

theorem charsLt_asymm : ∀ as bs : List Char, charsLt as bs = true →
    charsLt bs as = false := by
  intro as
  induction as with
  | nil =>
    intro bs h
    cases bs with
    | nil => cases h
    | cons b bs => rfl
  | cons a as ih =>
    intro bs h
    cases bs with
    | nil => cases h
    | cons b bs =>
      rw [charsLt_cons_iff] at h
      rw [← Bool.not_eq_true, charsLt_cons_iff]
      rcases h with h | ⟨h, hb⟩
      · intro hc
        rcases hc with hc | ⟨hc, _⟩ <;> omega
      · intro hc
        rcases hc with hc | ⟨_, hc⟩
        · omega
        · rw [ih bs hb] at hc
          cases hc

theorem charsLt_connex : ∀ as bs : List Char, charsLt as bs = false →
    charsLt bs as = false → as = bs := by
  intro as
  induction as with
  | nil =>
    intro bs h1 _
    cases bs with
    | nil => rfl
    | cons b bs => cases h1
  | cons a as ih =>
    intro bs h1 h2
    cases bs with
    | nil => cases h2
    | cons b bs =>
      rw [← Bool.not_eq_true, charsLt_cons_iff] at h1 h2
      push_neg at h1 h2
      have hab : a.toNat = b.toNat := by omega
      have : a = b := Char.ext (UInt32.ext hab)
      subst this
      rw [ih bs (Bool.not_eq_true _ ▸ (Bool.eq_false_iff.mpr (h1.2 rfl)))
        (Bool.eq_false_iff.mpr (h2.2 rfl))]

theorem charsLt_trans : ∀ as bs cs : List Char, charsLt as bs = true →
    charsLt bs cs = true → charsLt as cs = true := by
  intro as
  induction as with
  | nil =>
    intro bs cs h1 h2
    cases bs with
    | nil => cases h1
    | cons b bs =>
      cases cs with
      | nil => cases h2
      | cons c cs => rfl
  | cons a as ih =>
    intro bs cs h1 h2
    cases bs with
    | nil => cases h1
    | cons b bs =>
      cases cs with
      | nil => cases h2
      | cons c cs =>
        rw [charsLt_cons_iff] at h1 h2 ⊢
        rcases h1 with h1 | ⟨h1, h1b⟩ <;> rcases h2 with h2 | ⟨h2, h2b⟩
        · exact Or.inl (by omega)
        · exact Or.inl (by omega)
        · exact Or.inl (by omega)
        · exact Or.inr ⟨by omega, ih bs cs h1b h2b⟩

/-- Byte-wise filename order on file entries (Rust
`a.filename.cmp(&b.filename)` being `Less` or `Equal`). -/
def fileLe (a b : FileEntry) : Prop :=
  charsLe a.filename.data b.filename.data = true

instance : DecidableRel fileLe := fun a b => by
  unfold fileLe
  infer_instance

/-- `scan_directory` (`scanner.rs` lines 92-110): list the directory's
immediate regular files (`read_dir` entries that are not files are
skipped, which in the tree model leaves exactly the node's file list) and
sort them by filename, byte-wise ascending (Rust `String::cmp`; on valid
UTF-8, byte-wise order coincides with the scalar-value order used by
Lean's `String` order; any stable sort by a total preorder computes the
same list, so the embedding uses insertion sort). -/
def scan_directory (files : List FileEntry) : List FileEntry :=
  files.insertionSort fileLe

mutual
/-- The preorder list of directories the walker yields: each visited
directory's full path, current mtime, and raw file listing.  A directory
whose name is in the exclusion list is pruned together with its whole
subtree (`filter_entry` in `scanner.rs` lines 28-40). -/
def flattenVisits (exclude : List String) (path name : String) :
    FsTree → List (String × Int × List FileEntry)
  | FsTree.node mtime files subdirs =>
    if name ∈ exclude then []
    else (path, mtime, files) :: flattenChildren exclude path subdirs

/-- Visits contributed by a list of subdirectories of `path`. -/
def flattenChildren (exclude : List String) (path : String) :
    List (String × FsTree) → List (String × Int × List FileEntry)
  | [] => []
  | (n, t) :: rest =>
    flattenVisits exclude (pathJoin path n) n t ++ flattenChildren exclude path rest
end

/-- Loop body of `scan` (`scanner.rs` lines 42-72) for one visited
directory: on a cache hit (entry present with matching mtime) count it
cached; otherwise rescan the directory's files and replace the entry,
counting it scanned. -/
def stepVisit (acc : ScanState × Nat × Nat) (v : String × Int × List FileEntry) :
    ScanState × Nat × Nat :=
  match hmGet acc.1.dirs v.1 with
  | some cached =>
    if cached.dir_mtime = v.2.1 then (acc.1, acc.2.1 + 1, acc.2.2)
    else (⟨hmInsert acc.1.dirs v.1 ⟨v.2.1, scan_directory v.2.2⟩⟩, acc.2.1, acc.2.2 + 1)
  | none => (⟨hmInsert acc.1.dirs v.1 ⟨v.2.1, scan_directory v.2.2⟩⟩, acc.2.1, acc.2.2 + 1)

/-- Whether the loop body takes the cache-hit branch for visit `v`
against state `st`. -/
def hitB (st : ScanState) (v : String × Int × List FileEntry) : Bool :=
  match hmGet st.dirs v.1 with
  | some cached => decide (cached.dir_mtime = v.2.1)
  | none => false

/-- `scan` (`scanner.rs` lines 14-90): fold the loop body over the
visited directories, then prune every state key not seen during the run,
returning the updated state and the three counters.  `root` is the root's
full path and `rootName` its final component (`file_name`), which
`filter_entry` also tests against the exclusion list. -/
def scan (root rootName : String) (exclude : List String) (t : FsTree)
    (st : ScanState) : ScanState × ScanStats :=
  let visits := flattenVisits exclude root rootName t
  let folded := visits.foldl stepVisit (st, 0, 0)
  let seen := visits.map (fun v => v.1)
  let toRemove := (hmKeys folded.1.dirs).filter (fun k => !(seen.contains k))
  let pruned := toRemove.foldl (fun m k => hmRemove m k) folded.1.dirs
  (⟨pruned⟩, ⟨folded.2.1, folded.2.2, toRemove.length⟩)

/-- Well-formedness of a tree as a real filesystem directory: sibling
directory names are distinct and contain no path separator. -/
inductive FsTree.Wf : FsTree → Prop
  | node {mtime : Int} {files : List FileEntry} {subdirs : List (String × FsTree)} :
      (subdirs.map Prod.fst).Nodup →
      (∀ p ∈ subdirs, ('/' : Char) ∉ (Prod.fst p).data) →
      (∀ p ∈ subdirs, FsTree.Wf p.2) →
      FsTree.Wf (FsTree.node mtime files subdirs)

example :
    scan ("/r") ("r") [] (FsTree.node 3 [] [("a", FsTree.node 4 [] [])]) ⟨[]⟩ =
      (⟨[("/r", ⟨3, []⟩), ("/r/a", ⟨4, []⟩)]⟩, ⟨0, 2, 0⟩) := by decide

/-! ### Loop-body lemmas -/

/-- The cache-hit test, unfolded. -/
theorem hitB_true_iff (st : ScanState) (v : String × Int × List FileEntry) :
    hitB st v = true ↔ ∃ c, hmGet st.dirs v.1 = some c ∧ c.dir_mtime = v.2.1 := by
  rw [hitB]
  cases heq : hmGet st.dirs v.1 <;> simp

/-- The cache-hit test depends only on the entry stored at the visit's
key. -/
theorem hitB_congr (st₁ st₂ : ScanState) (v : String × Int × List FileEntry)
    (h : hmGet st₁.dirs v.1 = hmGet st₂.dirs v.1) : hitB st₁ v = hitB st₂ v := by
  rw [hitB, hitB, h]

/-- A cache hit requires the key to be present. -/
theorem hitB_mem_keys (st : ScanState) (v : String × Int × List FileEntry)
    (h : hitB st v = true) : v.1 ∈ hmKeys st.dirs := by
  rw [hitB_true_iff] at h
  obtain ⟨c, hg, _⟩ := h
  rw [← hmGet_isSome_iff, hg]
  rfl

/-- Loop body on a cache hit: state unchanged, cached count bumped. -/
theorem stepVisit_hit (acc : ScanState × Nat × Nat) (v : String × Int × List FileEntry)
    (h : hitB acc.1 v = true) : stepVisit acc v = (acc.1, acc.2.1 + 1, acc.2.2) := by
  rw [hitB_true_iff] at h
  obtain ⟨c, hg, hm⟩ := h
  simp [stepVisit, hg, hm]

/-- Loop body on a cache miss: entry replaced wholesale with the fresh
scan, scanned count bumped. -/
theorem stepVisit_miss (acc : ScanState × Nat × Nat) (v : String × Int × List FileEntry)
    (h : hitB acc.1 v = false) :
    stepVisit acc v =
      (⟨hmInsert acc.1.dirs v.1 ⟨v.2.1, scan_directory v.2.2⟩⟩, acc.2.1, acc.2.2 + 1) := by
  rw [hitB] at h
  cases heq : hmGet acc.1.dirs v.1 with
  | none => simp [stepVisit, heq]
  | some c =>
    rw [heq] at h
    simp only [decide_eq_true_eq, decide_eq_false_iff_not] at h
    simp [stepVisit, heq, h]

/-- Master specification of the scan loop fold over a duplicate-free
visit list: lookups away from the visits are untouched, a hit keeps the
stored entry, a miss stores the freshly scanned entry, and the two
counters count exactly the hits and the misses (all judged against the
starting state). -/
theorem foldVisits_spec (visits : List (String × Int × List FileEntry)) :
    ∀ st c s, (visits.map (fun v => v.1)).Nodup →
      ((∀ k, k ∉ visits.map (fun v => v.1) →
        hmGet ((visits.foldl stepVisit (st, c, s)).1).dirs k = hmGet st.dirs k)
      ∧ (∀ v ∈ visits, hitB st v = true →
        hmGet ((visits.foldl stepVisit (st, c, s)).1).dirs v.1 = hmGet st.dirs v.1)
      ∧ (∀ v ∈ visits, hitB st v = false →
        hmGet ((visits.foldl stepVisit (st, c, s)).1).dirs v.1
          = some ⟨v.2.1, scan_directory v.2.2⟩)
      ∧ (visits.foldl stepVisit (st, c, s)).2.1 = c + visits.countP (fun v => hitB st v)
      ∧ (visits.foldl stepVisit (st, c, s)).2.2
          = s + visits.countP (fun v => !hitB st v)) := by
  induction visits with
  | nil => intro st c s _; simp [hmGet]
  | cons v rest ih =>
    intro st c s hnd
    rw [List.map_cons, List.nodup_cons] at hnd
    obtain ⟨hv1, hndrest⟩ := hnd
    have hrest_ne : ∀ v' ∈ rest, v'.1 ≠ v.1 := by
      intro v' hv' he
      exact hv1 (he ▸ List.mem_map_of_mem (fun v => v.1) hv')
    cases hhit : hitB st v with
    | true =>
      rw [List.foldl_cons, stepVisit_hit (st, c, s) v hhit]
      obtain ⟨ih1, ih2, ih3, ih4, ih5⟩ := ih st (c + 1) s hndrest
      refine ⟨?_, ?_, ?_, ?_, ?_⟩
      · intro k hk
        rw [List.map_cons, List.mem_cons] at hk
        push_neg at hk
        exact ih1 k hk.2
      · intro v' hv' hh
        rw [List.mem_cons] at hv'
        rcases hv' with rfl | hv'
        · exact ih1 v'.1 hv1
        · exact ih2 v' hv' hh
      · intro v' hv' hh
        rw [List.mem_cons] at hv'
        rcases hv' with rfl | hv'
        · rw [hhit] at hh; cases hh
        · exact ih3 v' hv' hh
      · rw [ih4, List.countP_cons]
        simp [hhit]
        omega
      · rw [ih5, List.countP_cons]
        simp [hhit]
    | false =>
      rw [List.foldl_cons, stepVisit_miss (st, c, s) v hhit]
      have hget_ne : ∀ k, k ≠ v.1 →
          hmGet (hmInsert st.dirs v.1 ⟨v.2.1, scan_directory v.2.2⟩) k = hmGet st.dirs k :=
        fun k hk => hmGet_insert_ne st.dirs v.1 k _ hk
      have hget_self :
          hmGet (hmInsert st.dirs v.1 ⟨v.2.1, scan_directory v.2.2⟩) v.1
            = some ⟨v.2.1, scan_directory v.2.2⟩ :=
        hmGet_insert_self st.dirs v.1 _
      have hhit_rest : ∀ v' ∈ rest,
          hitB ⟨hmInsert st.dirs v.1 ⟨v.2.1, scan_directory v.2.2⟩⟩ v' = hitB st v' :=
        fun v' hv' => hitB_congr _ st v' (hget_ne v'.1 (hrest_ne v' hv'))
      obtain ⟨ih1, ih2, ih3, ih4, ih5⟩ :=
        ih ⟨hmInsert st.dirs v.1 ⟨v.2.1, scan_directory v.2.2⟩⟩ c (s + 1) hndrest
      refine ⟨?_, ?_, ?_, ?_, ?_⟩
      · intro k hk
        rw [List.map_cons, List.mem_cons] at hk
        push_neg at hk
        rw [ih1 k hk.2]
        exact hget_ne k hk.1
      · intro v' hv' hh
        rw [List.mem_cons] at hv'
        rcases hv' with rfl | hv'
        · rw [hhit] at hh; cases hh
        · rw [ih2 v' hv' (by rw [hhit_rest v' hv']; exact hh)]
          exact hget_ne v'.1 (hrest_ne v' hv')
      · intro v' hv' hh
        rw [List.mem_cons] at hv'
        rcases hv' with rfl | hv'
        · rw [ih1 v'.1 hv1]
          exact hget_self
        · exact ih3 v' hv' (by rw [hhit_rest v' hv']; exact hh)
      · rw [ih4, List.countP_cons]
        rw [List.countP_congr (fun x hx => by rw [hhit_rest x hx])]
        simp [hhit]
      · rw [ih5, List.countP_cons]
        rw [List.countP_congr (fun x hx => by rw [hhit_rest x hx])]
        simp [hhit]
        omega

/-- Entries after an insert come from the original map or are the new
binding. -/
theorem mem_hmInsert {β : Type} (m : List (String × β)) (k : String) (v : β)
    (p : String × β) (h : p ∈ hmInsert m k v) : p ∈ m ∨ p = (k, v) := by
  induction m with
  | nil => simp [hmInsert] at h; exact Or.inr h
  | cons q rest ih =>
    obtain ⟨k', w⟩ := q
    by_cases h2 : k' = k
    · rw [hmInsert, if_pos h2, List.mem_cons] at h
      rcases h with rfl | h
      · exact Or.inr rfl
      · exact Or.inl (List.mem_cons.mpr (Or.inr h))
    · rw [hmInsert, if_neg h2, List.mem_cons] at h
      rcases h with rfl | h
      · exact Or.inl (List.mem_cons.mpr (Or.inl rfl))
      · rcases ih h with h | h
        · exact Or.inl (List.mem_cons.mpr (Or.inr h))
        · exact Or.inr h

/-- Keys of a key-predicated filter. -/
theorem hmKeys_filter {β : Type} (m : List (String × β)) (q : String → Bool) :
    hmKeys (m.filter (fun p => q p.1)) = (hmKeys m).filter q := by
  induction m with
  | nil => rfl
  | cons p rest ih =>
    cases hq : q p.1 <;> simp [List.filter_cons, hmKeys_cons, hq, ih]

/-- Lookup in a key-predicated filter at a kept key. -/
theorem hmGet_filter {β : Type} (m : List (String × β)) (q : String → Bool)
    (k : String) (hq : q k = true) :
    hmGet (m.filter (fun p => q p.1)) k = hmGet m k := by
  induction m with
  | nil => rfl
  | cons p rest ih =>
    obtain ⟨k', w⟩ := p
    by_cases h2 : k' = k
    · subst h2
      simp [List.filter_cons, hq, hmGet]
    · cases hq2 : q k' <;> simp [List.filter_cons, hq2, hmGet, h2, ih]

/-- Key membership after the scan loop fold. -/
theorem foldVisits_mem_keys (visits : List (String × Int × List FileEntry)) :
    ∀ st c s k, k ∈ hmKeys ((visits.foldl stepVisit (st, c, s)).1).dirs ↔
      k ∈ hmKeys st.dirs ∨ k ∈ visits.map (fun v => v.1) := by
  induction visits with
  | nil => intro st c s k; simp
  | cons v rest ih =>
    intro st c s k
    cases hhit : hitB st v with
    | true =>
      rw [List.foldl_cons, stepVisit_hit (st, c, s) v hhit, ih]
      have hm := hitB_mem_keys st v hhit
      rw [List.map_cons, List.mem_cons]
      constructor
      · rintro (h | h)
        · exact Or.inl h
        · exact Or.inr (Or.inr h)
      · rintro (h | rfl | h)
        · exact Or.inl h
        · exact Or.inl hm
        · exact Or.inr h
    | false =>
      rw [List.foldl_cons, stepVisit_miss (st, c, s) v hhit, ih]
      rw [List.map_cons, List.mem_cons]
      have := mem_hmKeys_insert st.dirs v.1 k ⟨v.2.1, scan_directory v.2.2⟩
      rw [show (⟨hmInsert st.dirs v.1 ⟨v.2.1, scan_directory v.2.2⟩⟩ : ScanState).dirs
          = hmInsert st.dirs v.1 ⟨v.2.1, scan_directory v.2.2⟩ from rfl, this]
      tauto

/-- The scan loop fold only appends new keys, all of them visited. -/
theorem foldVisits_keys_append (visits : List (String × Int × List FileEntry)) :
    ∀ st c s, ∃ extra,
      hmKeys ((visits.foldl stepVisit (st, c, s)).1).dirs = hmKeys st.dirs ++ extra
      ∧ ∀ k ∈ extra, k ∈ visits.map (fun v => v.1) := by
  induction visits with
  | nil => intro st c s; exact ⟨[], by simp, by simp⟩
  | cons v rest ih =>
    intro st c s
    cases hhit : hitB st v with
    | true =>
      rw [List.foldl_cons, stepVisit_hit (st, c, s) v hhit]
      obtain ⟨extra, he, hsub⟩ := ih st (c + 1) s
      refine ⟨extra, he, fun k hk => ?_⟩
      rw [List.map_cons, List.mem_cons]
      exact Or.inr (hsub k hk)
    | false =>
      rw [List.foldl_cons, stepVisit_miss (st, c, s) v hhit]
      obtain ⟨extra, he, hsub⟩ :=
        ih ⟨hmInsert st.dirs v.1 ⟨v.2.1, scan_directory v.2.2⟩⟩ c (s + 1)
      by_cases hk : v.1 ∈ hmKeys st.dirs
      · rw [show hmKeys (⟨hmInsert st.dirs v.1 ⟨v.2.1, scan_directory v.2.2⟩⟩ : ScanState).dirs
            = hmKeys (hmInsert st.dirs v.1 ⟨v.2.1, scan_directory v.2.2⟩) from rfl,
          hmKeys_insert_mem st.dirs v.1 _ hk] at he
        refine ⟨extra, he, fun k hk2 => ?_⟩
        rw [List.map_cons, List.mem_cons]
        exact Or.inr (hsub k hk2)
      · rw [show hmKeys (⟨hmInsert st.dirs v.1 ⟨v.2.1, scan_directory v.2.2⟩⟩ : ScanState).dirs
            = hmKeys (hmInsert st.dirs v.1 ⟨v.2.1, scan_directory v.2.2⟩) from rfl,
          hmKeys_insert_notMem st.dirs v.1 _ hk, List.append_assoc] at he
        refine ⟨[v.1] ++ extra, he, fun k hk2 => ?_⟩
        rw [List.map_cons, List.mem_cons]
        rcases List.mem_append.mp hk2 with h | h
        · rw [List.mem_singleton] at h
          exact Or.inl h
        · exact Or.inr (hsub k h)

/-- The scan loop fold preserves key distinctness. -/
theorem foldVisits_nodup (visits : List (String × Int × List FileEntry)) :
    ∀ st c s, (hmKeys st.dirs).Nodup →
      (hmKeys ((visits.foldl stepVisit (st, c, s)).1).dirs).Nodup := by
  induction visits with
  | nil => intro st c s h; exact h
  | cons v rest ih =>
    intro st c s h
    cases hhit : hitB st v with
    | true =>
      rw [List.foldl_cons, stepVisit_hit (st, c, s) v hhit]
      exact ih st (c + 1) s h
    | false =>
      rw [List.foldl_cons, stepVisit_miss (st, c, s) v hhit]
      exact ih _ c (s + 1) (hmKeys_insert_nodup st.dirs v.1 _ h)

/-- The scan loop fold preserves an arbitrary invariant of stored entries
as long as freshly scanned entries satisfy it. -/
theorem foldVisits_allP (P : DirEntry → Prop)
    (hfresh : ∀ (m : Int) (fs : List FileEntry), P ⟨m, scan_directory fs⟩)
    (visits : List (String × Int × List FileEntry)) :
    ∀ st c s, (∀ p ∈ st.dirs, P p.2) →
      ∀ p ∈ ((visits.foldl stepVisit (st, c, s)).1).dirs, P p.2 := by
  induction visits with
  | nil => intro st c s h; exact h
  | cons v rest ih =>
    intro st c s h
    cases hhit : hitB st v with
    | true =>
      rw [List.foldl_cons, stepVisit_hit (st, c, s) v hhit]
      exact ih st (c + 1) s h
    | false =>
      rw [List.foldl_cons, stepVisit_miss (st, c, s) v hhit]
      refine ih _ c (s + 1) ?_
      intro p hp
      rcases mem_hmInsert st.dirs v.1 _ p hp with hp2 | hp2
      · exact h p hp2
      · rw [hp2]
        exact hfresh v.2.1 v.2.2

/-- When every visit hits the cache, the fold leaves the state untouched
and only counts. -/
theorem fold_allHit (visits : List (String × Int × List FileEntry)) :
    ∀ st c s, (∀ v ∈ visits, hitB st v = true) →
      visits.foldl stepVisit (st, c, s) = (st, c + visits.length, s) := by
  induction visits with
  | nil => intro st c s _; simp
  | cons v rest ih =>
    intro st c s hall
    rw [List.foldl_cons, stepVisit_hit (st, c, s) v (hall v (List.mem_cons_self v rest))]
    rw [ih st (c + 1) s (fun v' hv' => hall v' (List.mem_cons.mpr (Or.inr hv')))]
    rw [List.length_cons]
    refine Prod.ext rfl (Prod.ext ?_ rfl)
    simp
    omega

/-- When exactly one visit misses (all others hitting), the fold replaces
just that entry and counts one miss. -/
theorem fold_oneMiss (visits : List (String × Int × List FileEntry)) :
    ∀ st c s v, v ∈ visits → (visits.map (fun x => x.1)).Nodup →
      hitB st v = false → (∀ v' ∈ visits, v' ≠ v → hitB st v' = true) →
      visits.foldl stepVisit (st, c, s) =
        (⟨hmInsert st.dirs v.1 ⟨v.2.1, scan_directory v.2.2⟩⟩,
         c + (visits.length - 1), s + 1) := by
  induction visits with
  | nil => intro st c s v h; cases h
  | cons w rest ih =>
    intro st c s v hv hnd hmiss hhits
    rw [List.map_cons, List.nodup_cons] at hnd
    obtain ⟨hw1, hndrest⟩ := hnd
    rcases List.mem_cons.mp hv with rfl | hv
    · rw [List.foldl_cons, stepVisit_miss (st, c, s) v hmiss]
      have hall : ∀ v' ∈ rest,
          hitB ⟨hmInsert st.dirs v.1 ⟨v.2.1, scan_directory v.2.2⟩⟩ v' = true := by
        intro v' hv'
        have hne : v'.1 ≠ v.1 := by
          intro he
          exact hw1 (he ▸ List.mem_map_of_mem (fun x => x.1) hv')
        rw [hitB_congr _ st v' (hmGet_insert_ne st.dirs v.1 v'.1 _ hne)]
        refine hhits v' (List.mem_cons.mpr (Or.inr hv')) ?_
        intro he
        exact hne (congrArg (fun x => x.1) he)
      rw [fold_allHit rest _ c (s + 1) hall]
      rw [List.length_cons]
      refine Prod.ext rfl (Prod.ext ?_ rfl)
      simp
    · have hwv : w ≠ v := by
        intro he
        subst he
        exact hw1 (List.mem_map_of_mem (fun x => x.1) hv)
      rw [List.foldl_cons, stepVisit_hit (st, c, s) w
        (hhits w (List.mem_cons_self w rest) hwv)]
      rw [ih st (c + 1) s v hv hndrest hmiss
        (fun v' hv' hne => hhits v' (List.mem_cons.mpr (Or.inr hv')) hne)]
      have hlen : 1 ≤ rest.length := by
        cases rest with
        | nil => cases hv
        | cons a l => simp
      rw [List.length_cons]
      refine Prod.ext rfl (Prod.ext ?_ rfl)
      simp
      omega

/-- Folding `hmRemove` over a key list filters those keys out. -/
theorem foldl_hmRemove_eq_filter {β : Type} (l : List String) :
    ∀ m : List (String × β),
      l.foldl (fun m k => hmRemove m k) m = m.filter (fun p => !(l.contains p.1)) := by
  induction l with
  | nil =>
    intro m
    simp [List.filter]
  | cons k l ihl =>
    intro m
    rw [List.foldl_cons, ihl (hmRemove m k), hmRemove, List.filter_filter]
    apply List.filter_congr
    intro p _
    by_cases h1 : p.1 = k <;> by_cases h2 : p.1 ∈ l <;>
      simp [h1, h2, List.elem_eq_mem]

/-- `scan`, re-expressed: the fold of the loop body followed by a filter
keeping exactly the seen keys, with the removed counter sized by the
pruned key list. -/
theorem scan_spec (root rootName : String) (exclude : List String) (t : FsTree)
    (st : ScanState) :
    scan root rootName exclude t st =
      (⟨((flattenVisits exclude root rootName t).foldl stepVisit (st, 0, 0)).1.dirs.filter
          (fun p => ((flattenVisits exclude root rootName t).map (fun v => v.1)).contains p.1)⟩,
       ⟨((flattenVisits exclude root rootName t).foldl stepVisit (st, 0, 0)).2.1,
        ((flattenVisits exclude root rootName t).foldl stepVisit (st, 0, 0)).2.2,
        ((hmKeys ((flattenVisits exclude root rootName t).foldl stepVisit (st, 0, 0)).1.dirs).filter
          (fun k => !(((flattenVisits exclude root rootName t).map (fun v => v.1)).contains k))).length⟩) := by
  simp only [scan]
  rw [foldl_hmRemove_eq_filter]
  refine congrArg₂ Prod.mk (congrArg ScanState.mk ?_) rfl
  apply List.filter_congr
  intro p hp
  have hpk : p.1 ∈ hmKeys ((flattenVisits exclude root rootName t).foldl stepVisit (st, 0, 0)).1.dirs :=
    List.mem_map_of_mem Prod.fst hp
  by_cases h : p.1 ∈ (flattenVisits exclude root rootName t).map (fun v => v.1)
  · simp [List.elem_eq_mem, List.mem_filter, hpk, h]
  · simp [List.elem_eq_mem, List.mem_filter, hpk, h]
    exact hpk

/-! ### Path-shape lemmas -/

/-- Character-level form of `pathJoin`. -/
theorem pathJoin_data (p n : String) :
    (pathJoin p n).data = p.data ++ '/' :: n.data := by
  simp [pathJoin, String.data_append]

/-- `s` lies at or below `base`: it is `base` itself or `base` followed by
a slash-led remainder. -/
def IsUnder (base s : String) : Prop :=
  ∃ r : List Char, s.data = base.data ++ r ∧ (r = [] ∨ ∃ r2, r = '/' :: r2)

theorem isUnder_refl (b : String) : IsUnder b b :=
  ⟨[], by simp, Or.inl rfl⟩

/-- Being under a joined child path puts a string under the parent. -/
theorem isUnder_join_isUnder (p n s : String) (h : IsUnder (pathJoin p n) s) :
    IsUnder p s := by
  obtain ⟨r, hr, _⟩ := h
  rw [pathJoin_data, List.append_assoc] at hr
  exact ⟨'/' :: (n.data ++ r), hr, Or.inr ⟨n.data ++ r, rfl⟩⟩

/-- Nothing under a joined child path equals the parent itself. -/
theorem isUnder_join_ne_base (p n s : String) (h : IsUnder (pathJoin p n) s) :
    s ≠ p := by
  obtain ⟨r, hr, _⟩ := h
  intro he
  subst he
  rw [pathJoin_data, List.append_assoc] at hr
  have := congrArg List.length hr
  simp at this

/-- Two slash-free words followed by empty-or-slash-led remainders can
only concatenate to the same string if the words agree. -/
theorem eq_of_append_sep (a : List Char) :
    ∀ b r₁ r₂ : List Char, a ++ r₁ = b ++ r₂ →
      ('/' : Char) ∉ a → ('/' : Char) ∉ b →
      (r₁ = [] ∨ ∃ x, r₁ = '/' :: x) → (r₂ = [] ∨ ∃ x, r₂ = '/' :: x) →
      a = b := by
  induction a with
  | nil =>
    intro b r₁ r₂ he _ hb h1 _
    cases b with
    | nil => rfl
    | cons d bs =>
      rw [List.nil_append] at he
      rcases h1 with rfl | ⟨x, rfl⟩
      · cases he
      · rw [List.cons_append] at he
        injection he with hd _
        rw [List.mem_cons] at hb
        push_neg at hb
        exact absurd hd hb.1
  | cons c as ih =>
    intro b r₁ r₂ he ha hb h1 h2
    cases b with
    | nil =>
      rw [List.nil_append] at he
      rcases h2 with rfl | ⟨x, rfl⟩
      · cases he
      · rw [List.cons_append] at he
        injection he with hc _
        rw [List.mem_cons] at ha
        push_neg at ha
        exact absurd hc.symm ha.1
    | cons d bs =>
      rw [List.cons_append, List.cons_append] at he
      injection he with he1 he2
      subst he1
      rw [List.mem_cons] at ha hb
      push_neg at ha hb
      rw [ih bs r₁ r₂ he2 ha.2 hb.2 h1 h2]

/-- Strings under two sibling subdirectories coincide only if the sibling
names do. -/
theorem under_same_child (p n₁ n₂ s : String)
    (hn1 : ('/' : Char) ∉ n₁.data) (hn2 : ('/' : Char) ∉ n₂.data)
    (h1 : IsUnder (pathJoin p n₁) s) (h2 : IsUnder (pathJoin p n₂) s) :
    n₁ = n₂ := by
  obtain ⟨r1, hr1, hc1⟩ := h1
  obtain ⟨r2, hr2, hc2⟩ := h2
  rw [pathJoin_data, List.append_assoc] at hr1 hr2
  rw [hr1] at hr2
  have he := List.append_cancel_left hr2
  injection he with _ he2
  exact String.ext (eq_of_append_sep n₁.data n₂.data r1 r2 he2 hn1 hn2 hc1 hc2)

/-! ### Visit-list lemmas -/

/-- `flattenChildren` as a flatten of per-child visit lists. -/
theorem flattenChildren_eq (ex : List String) (p : String)
    (l : List (String × FsTree)) :
    flattenChildren ex p l
      = (l.map (fun q => flattenVisits ex (pathJoin p q.1) q.1 q.2)).flatten := by
  induction l with
  | nil => simp [flattenChildren]
  | cons q rest ih =>
    obtain ⟨n, t⟩ := q
    simp [flattenChildren, ih]

/-- Every visit lies at or below the walk root; every visit contributed
by a subdirectory list lies below one of its members. -/
theorem flattenVisits_under (ex : List String) :
    (∀ path name t, ∀ v ∈ flattenVisits ex path name t, IsUnder path v.1)
  ∧ (∀ path l, ∀ v ∈ flattenChildren ex path l,
      ∃ q ∈ l, IsUnder (pathJoin path q.1) v.1) := by
  refine flattenVisits.mutual_induct ex
    (fun path name t => ∀ v ∈ flattenVisits ex path name t, IsUnder path v.1)
    (fun path l => ∀ v ∈ flattenChildren ex path l,
      ∃ q ∈ l, IsUnder (pathJoin path q.1) v.1) ?_ ?_ ?_ ?_
  · intro path name mtime files subdirs hex v hv
    rw [flattenVisits, if_pos hex] at hv
    cases hv
  · intro path name mtime files subdirs hex ih v hv
    rw [flattenVisits, if_neg hex, List.mem_cons] at hv
    rcases hv with rfl | hv
    · exact isUnder_refl path
    · obtain ⟨q, _, hu⟩ := ih v hv
      exact isUnder_join_isUnder path q.1 v.1 hu
  · intro path v hv
    cases hv
  · intro path n t rest ih1 ih2 v hv
    rw [flattenChildren, List.mem_append] at hv
    rcases hv with hv | hv
    · exact ⟨(n, t), List.mem_cons_self (n, t) rest, ih1 v hv⟩
    · obtain ⟨q, hq, hu⟩ := ih2 v hv
      exact ⟨q, List.mem_cons.mpr (Or.inr hq), hu⟩

/-- On a well-formed tree, the visited paths are pairwise distinct. -/
theorem seen_nodup (ex : List String) (t : FsTree) (hwf : t.Wf) :
    ∀ path name, ((flattenVisits ex path name t).map (fun v => v.1)).Nodup := by
  induction hwf with
  | node hnames hslash _hwfs ih =>
    intro path name
    rename_i mtime files subdirs
    by_cases hex : name ∈ ex
    · rw [flattenVisits, if_pos hex]
      exact List.nodup_nil
    · rw [flattenVisits, if_neg hex, List.map_cons, List.nodup_cons]
      constructor
      · intro hmem
        rw [List.mem_map] at hmem
        obtain ⟨v, hv, hveq⟩ := hmem
        obtain ⟨q, _, hu⟩ := (flattenVisits_under ex).2 path subdirs v hv
        exact isUnder_join_ne_base path q.1 v.1 hu hveq
      · rw [flattenChildren_eq, List.map_flatten, List.nodup_flatten]
        constructor
        · intro l hl
          rw [List.map_map, List.mem_map] at hl
          obtain ⟨q, hq, rfl⟩ := hl
          exact ih q hq (pathJoin path q.1) q.1
        · rw [List.map_map, List.pairwise_map]
          have hpw : List.Pairwise (fun q₁ q₂ : String × FsTree => q₁.1 ≠ q₂.1) subdirs :=
            List.pairwise_map.mp hnames
          refine hpw.imp_of_mem ?_
          intro q₁ q₂ hq₁ hq₂ hne s hs₁ hs₂
      
      
        
        
        
        
        
        
        
        
        
        
          rw [Function.comp, List.mem_map] at hs₁ hs₂
          obtain ⟨v₁, hv₁, rfl⟩ := hs₁
          obtain ⟨v₂, hv₂, heq⟩ := hs₂
          have hu₁ := (flattenVisits_under ex).1 (pathJoin path q₁.1) q₁.1 q₁.2 v₁ hv₁
          have hu₂ := (flattenVisits_under ex).1 (pathJoin path q₂.1) q₂.1 q₂.2 v₂ hv₂
          rw [heq] at hu₂
          exact hne (under_same_child path q₁.1 q₂.1 v₁.1
            (hslash q₁ hq₁) (hslash q₂ hq₂) hu₁ hu₂)

@[simp] theorem dirs_mk (l : List (String × DirEntry)) :
    (⟨l⟩ : ScanState).dirs = l := rfl

/-- After a scan, the state's keys are exactly the visited paths. -/
theorem scan_mem_keys (root rootName : String) (ex : List String) (t : FsTree)
    (st : ScanState) (k : String) :
    k ∈ hmKeys (scan root rootName ex t st).1.dirs ↔
      k ∈ (flattenVisits ex root rootName t).map (fun v => v.1) := by
  rw [scan_spec]
  simp only [dirs_mk]
  rw [hmKeys_filter, List.mem_filter]
  constructor
  · rintro ⟨_, hk⟩
    simpa [List.elem_eq_mem] using hk
  · intro hk
    refine ⟨?_, by simpa [List.elem_eq_mem] using hk⟩
    rw [foldVisits_mem_keys]
    exact Or.inr hk

/-- At a visited key, the pruning filter is transparent. -/
theorem scan_get_seen (root rootName : String) (ex : List String) (t : FsTree)
    (st : ScanState) (k : String)
    (hk : k ∈ (flattenVisits ex root rootName t).map (fun v => v.1)) :
    hmGet (scan root rootName ex t st).1.dirs k
      = hmGet ((flattenVisits ex root rootName t).foldl stepVisit (st, 0, 0)).1.dirs k := by
  rw [scan_spec]
  simp only [dirs_mk]
  exact hmGet_filter _ _ k (by simpa [List.elem_eq_mem] using hk)

/-- After a scan of a well-formed tree, every visited directory is stored
with its current mtime. -/
theorem scan_synced (root rootName : String) (ex : List String) (t : FsTree)
    (st : ScanState) (hwf : t.Wf) :
    ∀ v ∈ flattenVisits ex root rootName t,
      ∃ e, hmGet (scan root rootName ex t st).1.dirs v.1 = some e
        ∧ e.dir_mtime = v.2.1 := by
  intro v hv
  have hk : v.1 ∈ (flattenVisits ex root rootName t).map (fun v => v.1) :=
    List.mem_map_of_mem (fun v => v.1) hv
  rw [scan_get_seen root rootName ex t st v.1 hk]
  have hnd := seen_nodup ex t hwf root rootName
  obtain ⟨h1, h2, h3, h4, h5⟩ := foldVisits_spec (flattenVisits ex root rootName t) st 0 0 hnd
  cases hhit : hitB st v with
  | true =>
    rw [h2 v hv hhit]
    rw [hitB_true_iff] at hhit
    exact hhit
  | false => exact ⟨⟨v.2.1, scan_directory v.2.2⟩, h3 v hv hhit, rfl⟩

/-- C2.  Cache-hit idempotence: rescanning an unchanged tree with the
state produced by a previous scan of that tree leaves the state unchanged
and reports zero scanned, zero removed, and a cached count equal to the
number of (non-excluded) directories under the root. -/
theorem scan_unchanged_second_run (root rootName : String) (exclude : List String)
    (t : FsTree) (st : ScanState) (hwf : t.Wf) :
    scan root rootName exclude t (scan root rootName exclude t st).1
      = ((scan root rootName exclude t st).1,
         ⟨(flattenVisits exclude root rootName t).length, 0, 0⟩) := by
  set st₁ := (scan root rootName exclude t st).1 with hst₁
  have hall : ∀ v ∈ flattenVisits exclude root rootName t, hitB st₁ v = true := by
    intro v hv
    obtain ⟨e, hg, hm⟩ := scan_synced root rootName exclude t st hwf v hv
    rw [hitB_true_iff]
    exact ⟨e, hg, hm⟩
  have hfold := fold_allHit (flattenVisits exclude root rootName t) st₁ 0 0 hall
  have hkeys : ∀ k ∈ hmKeys st₁.dirs,
      k ∈ (flattenVisits exclude root rootName t).map (fun v => v.1) :=
    fun k hk => (scan_mem_keys root rootName exclude t st k).mp hk
  rw [scan_spec, hfold]
  have hfilter : st₁.dirs.filter
      (fun p => ((flattenVisits exclude root rootName t).map (fun v => v.1)).contains p.1)
      = st₁.dirs := by
    rw [List.filter_eq_self]
    intro p hp
    simpa [List.elem_eq_mem] using hkeys p.1 (List.mem_map_of_mem Prod.fst hp)
  have hrem : (hmKeys st₁.dirs).filter
      (fun k => !(((flattenVisits exclude root rootName t).map (fun v => v.1)).contains k))
      = [] := by
    rw [List.filter_eq_nil_iff]
    intro k hk
    simpa [List.elem_eq_mem] using hkeys k hk
  simp only [dirs_mk, hfilter, hrem]
  simp

/-- Witness for C2 on a concrete two-directory tree. -/
theorem scan_unchanged_second_run_witness :
    scan ("/r") ("r") [] (FsTree.node 3 [] [("a", FsTree.node 4 [] [])])
        ((scan ("/r") ("r") [] (FsTree.node 3 [] [("a", FsTree.node 4 [] [])]) ⟨[]⟩).1)
      = ((scan ("/r") ("r") [] (FsTree.node 3 [] [("a", FsTree.node 4 [] [])]) ⟨[]⟩).1,
         ⟨2, 0, 0⟩) := by
  have hwf : (FsTree.node 3 [] [("a", FsTree.node 4 [] [])]).Wf := by
    refine FsTree.Wf.node (by simp) ?_ ?_
    · intro p hp
      rw [List.mem_singleton] at hp
      subst hp
      decide
    · intro p hp
      rw [List.mem_singleton] at hp
      subst hp
      exact FsTree.Wf.node (by simp) (by simp) (by simp)
  have h := scan_unchanged_second_run ("/r") ("r") [] _ ⟨[]⟩ hwf
  rw [show (flattenVisits [] ("/r") ("r")
      (FsTree.node 3 [] [("a", FsTree.node 4 [] [])])).length = 2 from by decide] at h
  exact h

/-- C5.  Pruning is exact: after a scan, every prior key that was not
visited is gone, every visited path is present, and `dirs_removed` counts
exactly the prior keys that were not visited. -/
theorem scan_prunes_exactly (root rootName : String) (exclude : List String)
    (t : FsTree) (st : ScanState) :
    (∀ k ∈ hmKeys st.dirs,
       k ∉ (flattenVisits exclude root rootName t).map (fun v => v.1) →
       k ∉ hmKeys (scan root rootName exclude t st).1.dirs)
  ∧ (∀ k ∈ (flattenVisits exclude root rootName t).map (fun v => v.1),
       k ∈ hmKeys (scan root rootName exclude t st).1.dirs)
  ∧ (scan root rootName exclude t st).2.dirs_removed
      = ((hmKeys st.dirs).filter
          (fun k => !(((flattenVisits exclude root rootName t).map (fun v => v.1)).contains k))).length := by
  refine ⟨?_, ?_, ?_⟩
  · intro k _ hk hmem
    exact hk ((scan_mem_keys root rootName exclude t st k).mp hmem)
  · intro k hk
    exact (scan_mem_keys root rootName exclude t st k).mpr hk
  · rw [scan_spec]
    obtain ⟨extra, he, hsub⟩ :=
      foldVisits_keys_append (flattenVisits exclude root rootName t) st 0 0
    simp only [he]
    rw [List.filter_append]
    have hextra : extra.filter
        (fun k => !(((flattenVisits exclude root rootName t).map (fun v => v.1)).contains k))
        = [] := by
      rw [List.filter_eq_nil_iff]
      intro k hk
      simpa [List.elem_eq_mem] using hsub k hk
    rw [hextra, List.append_nil]

/-- C10.  Post-scan key-set invariant: the resulting state's keys are
exactly the visited paths, whatever the prior state contained, and
consequently the cached plus scanned counts equal the number of entries
in the resulting state. -/
theorem scan_keyset_invariant (root rootName : String) (exclude : List String)
    (t : FsTree) (st : ScanState) (hwf : t.Wf)
    (hnd : (hmKeys st.dirs).Nodup) :
    (∀ k, k ∈ hmKeys (scan root rootName exclude t st).1.dirs ↔
       k ∈ (flattenVisits exclude root rootName t).map (fun v => v.1))
  ∧ (scan root rootName exclude t st).2.dirs_cached
      + (scan root rootName exclude t st).2.dirs_scanned
      = (scan root rootName exclude t st).1.dirs.length := by
  refine ⟨fun k => scan_mem_keys root rootName exclude t st k, ?_⟩
  have hseen_nodup := seen_nodup exclude t hwf root rootName
  have hkeys_nodup : (hmKeys (scan root rootName exclude t st).1.dirs).Nodup := by
    rw [scan_spec]
    simp only [dirs_mk]
    rw [hmKeys_filter]
    exact (foldVisits_nodup (flattenVisits exclude root rootName t) st 0 0 hnd).filter _
  have hperm : (hmKeys (scan root rootName exclude t st).1.dirs).Perm
      ((flattenVisits exclude root rootName t).map (fun v => v.1)) :=
    (List.perm_ext_iff_of_nodup hkeys_nodup hseen_nodup).mpr
      (fun k => scan_mem_keys root rootName exclude t st k)
  have hlen1 : (scan root rootName exclude t st).1.dirs.length
      = (hmKeys (scan root rootName exclude t st).1.dirs).length :=
    (List.length_map _ _).symm
  rw [hlen1, hperm.length_eq, List.length_map]
  obtain ⟨h1, h2, h3, h4, h5⟩ :=
    foldVisits_spec (flattenVisits exclude root rootName t) st 0 0 hseen_nodup
  rw [scan_spec]
  simp only [h4, h5]
  have hcc : List.countP (fun v => !hitB st v) (flattenVisits exclude root rootName t)
      = List.countP (fun a => decide ¬(hitB st a = true))
          (flattenVisits exclude root rootName t) :=
    List.countP_congr (fun x _ => by cases hitB st x <;> simp)
  have hlen := List.length_eq_countP_add_countP (fun v => hitB st v)
    (flattenVisits exclude root rootName t)
  omega

/-- C8.  Sorted-files invariant: a fresh directory scan produces a
filename-sorted permutation of the directory's files (Lean's `String`
order on valid UTF-8 coincides with Rust's byte-wise order); every entry
of a post-scan state is either carried over from the prior state or
filename-sorted, so states built from sorted (for example empty) prior
states have every file list sorted; and the z/m/a example sorts to
a/m/z. -/
theorem scan_files_sorted_invariant :
    (∀ fs : List FileEntry,
        List.Pairwise fileLe (scan_directory fs)
      ∧ (scan_directory fs).Perm fs)
  ∧ (∀ (root rootName : String) (exclude : List String) (t : FsTree) (st : ScanState),
      ∀ p ∈ (scan root rootName exclude t st).1.dirs,
        (∃ k, (k, p.2) ∈ st.dirs)
        ∨ List.Pairwise fileLe p.2.files)
  ∧ (∀ (root rootName : String) (exclude : List String) (t : FsTree) (st : ScanState),
      (∀ p ∈ st.dirs, List.Pairwise fileLe p.2.files) →
      ∀ p ∈ (scan root rootName exclude t st).1.dirs,
        List.Pairwise fileLe p.2.files)
  ∧ scan_directory
        [⟨"z.txt", 1, 1, 1⟩, ⟨"m.txt", 2, 2, 2⟩, ⟨"a.txt", 3, 3, 3⟩]
      = [⟨"a.txt", 3, 3, 3⟩, ⟨"m.txt", 2, 2, 2⟩, ⟨"z.txt", 1, 1, 1⟩] := by
  have hsorted : ∀ fs : List FileEntry,
      List.Pairwise fileLe (scan_directory fs) := by
    intro fs
    haveI : IsTotal FileEntry fileLe :=
      ⟨fun a b => charsLe_total a.filename.data b.filename.data⟩
    haveI : IsTrans FileEntry fileLe :=
      ⟨fun a b c hab hbc => charsLe_trans a.filename.data b.filename.data c.filename.data hab hbc⟩
    exact List.sorted_insertionSort fileLe fs
  refine ⟨fun fs => ⟨hsorted fs, List.perm_insertionSort _ fs⟩, ?_, ?_, by decide⟩
  · intro root rootName exclude t st p hp
    rw [scan_spec] at hp
    simp only [dirs_mk] at hp
    have hp2 := List.mem_of_mem_filter hp
    refine foldVisits_allP
      (fun e => (∃ k, (k, e) ∈ st.dirs)
        ∨ List.Pairwise fileLe e.files)
      (fun m fs => Or.inr (hsorted fs)) (flattenVisits exclude root rootName t)
      st 0 0 ?_ p hp2
    intro q hq
    exact Or.inl ⟨q.1, hq⟩
  · intro root rootName exclude t st hst p hp
    rw [scan_spec] at hp
    simp only [dirs_mk] at hp
    have hp2 := List.mem_of_mem_filter hp
    exact foldVisits_allP
      (fun e => List.Pairwise fileLe e.files)
      (fun m fs => hsorted fs) (flattenVisits exclude root rootName t)
      st 0 0 hst p hp2

/-- A full scan from the empty state stores the freshly scanned entry at
every visited path. -/
theorem scan_from_empty_get (root rootName : String) (exclude : List String)
    (t : FsTree) (hwf : t.Wf) :
    ∀ v ∈ flattenVisits exclude root rootName t,
      hmGet (scan root rootName exclude t ⟨[]⟩).1.dirs v.1
        = some ⟨v.2.1, scan_directory v.2.2⟩ := by
  intro v hv
  rw [scan_get_seen root rootName exclude t ⟨[]⟩ v.1
    (List.mem_map_of_mem (fun v => v.1) hv)]
  have hnd := seen_nodup exclude t hwf root rootName
  obtain ⟨h1, h2, h3, h4, h5⟩ :=
    foldVisits_spec (flattenVisits exclude root rootName t) ⟨[]⟩ 0 0 hnd
  exact h3 v hv (by simp [hitB, hmGet])

/-- C3.  Invalidation is exact: starting from the state a full scan of
the tree produces, overwriting one stored directory's mtime with any
value different from its current on-disk mtime makes the next scan
rescan exactly that directory — replacing its entry wholesale with the
freshly built sorted file list and current mtime, serving every other
directory from cache, and pruning nothing — restoring the full-scan
state. -/
theorem scan_invalidation_exact (root rootName : String) (exclude : List String)
    (t : FsTree) (hwf : t.Wf) (v : String × Int × List FileEntry)
    (hv : v ∈ flattenVisits exclude root rootName t) (e : DirEntry)
    (hget : hmGet (scan root rootName exclude t ⟨[]⟩).1.dirs v.1 = some e)
    (m' : Int) (hm : m' ≠ e.dir_mtime) :
    e = ⟨v.2.1, scan_directory v.2.2⟩
    ∧ scan root rootName exclude t
        ⟨hmInsert (scan root rootName exclude t ⟨[]⟩).1.dirs v.1 ⟨m', e.files⟩⟩
      = ((scan root rootName exclude t ⟨[]⟩).1,
         ⟨(flattenVisits exclude root rootName t).length - 1, 1, 0⟩) := by
  have hfresh := scan_from_empty_get root rootName exclude t hwf
  have he : e = ⟨v.2.1, scan_directory v.2.2⟩ := by
    have h2 := hfresh v hv
    rw [hget] at h2
    exact Option.some_inj.mp h2
  refine ⟨he, ?_⟩
  set st₁ := (scan root rootName exclude t ⟨[]⟩).1 with hst₁
  have hnd := seen_nodup exclude t hwf root rootName
  have hmtime : e.dir_mtime = v.2.1 := by rw [he]
  -- the modified state misses at v and hits everywhere else
  have hmiss : hitB ⟨hmInsert st₁.dirs v.1 ⟨m', e.files⟩⟩ v = false := by
    rw [hitB]
    simp only [dirs_mk]
    rw [hmGet_insert_self st₁.dirs v.1 ⟨m', e.files⟩]
    simp only [decide_eq_false_iff_not]
    intro hc
    exact hm (by rw [hmtime]; exact hc)
  have hhits : ∀ w ∈ flattenVisits exclude root rootName t, w ≠ v →
      hitB ⟨hmInsert st₁.dirs v.1 ⟨m', e.files⟩⟩ w = true := by
    intro w hw hwv
    have hkey : w.1 ≠ v.1 := by
      intro hkeq
      exact hwv (List.inj_on_of_nodup_map hnd hw hv hkeq)
    rw [hitB]
    simp only [dirs_mk]
    rw [hmGet_insert_ne st₁.dirs v.1 w.1 ⟨m', e.files⟩ hkey, hfresh w hw]
    simp
  have hfold := fold_oneMiss (flattenVisits exclude root rootName t)
    ⟨hmInsert st₁.dirs v.1 ⟨m', e.files⟩⟩ 0 0 v hv hnd hmiss hhits
  have hcollapse : hmInsert (⟨hmInsert st₁.dirs v.1 ⟨m', e.files⟩⟩ : ScanState).dirs v.1
      ⟨v.2.1, scan_directory v.2.2⟩ = st₁.dirs := by
    simp only [dirs_mk]
    rw [hmInsert_insert st₁.dirs v.1 ⟨m', e.files⟩ ⟨v.2.1, scan_directory v.2.2⟩]
    exact hmInsert_same st₁.dirs v.1 ⟨v.2.1, scan_directory v.2.2⟩ (by rw [← he]; exact hget)
  rw [hcollapse] at hfold
  have hkeys : ∀ k ∈ hmKeys st₁.dirs,
      k ∈ (flattenVisits exclude root rootName t).map (fun v => v.1) :=
    fun k hk => (scan_mem_keys root rootName exclude t ⟨[]⟩ k).mp hk
  rw [scan_spec, hfold]
  have hfilter : st₁.dirs.filter
      (fun p => ((flattenVisits exclude root rootName t).map (fun v => v.1)).contains p.1)
      = st₁.dirs := by
    rw [List.filter_eq_self]
    intro p hp
    simpa [List.elem_eq_mem] using hkeys p.1 (List.mem_map_of_mem Prod.fst hp)
  have hrem : (hmKeys st₁.dirs).filter
      (fun k => !(((flattenVisits exclude root rootName t).map (fun v => v.1)).contains k))
      = [] := by
    rw [List.filter_eq_nil_iff]
    intro k hk
    simpa [List.elem_eq_mem] using hkeys k hk
  simp only [dirs_mk, hfilter, hrem]
  refine congrArg₂ Prod.mk rfl ?_
  simp

/-- An excluded directory name contributes no visits at all. -/
theorem flattenVisits_excluded (ex : List String) (p name : String) (t : FsTree)
    (h : name ∈ ex) : flattenVisits ex p name t = [] := by
  cases t with
  | node m f s => rw [flattenVisits, if_pos h]

/-- Join relative path components with slashes. -/
def joinComps : List String → String
  | [] => ""
  | c :: rest => if rest = [] then c else c ++ "/" ++ joinComps rest

theorem joinComps_cons_ne (c : String) (l : List String) (h : l ≠ []) :
    joinComps (c :: l) = c ++ "/" ++ joinComps l := by
  simp [joinComps, h]

theorem joinComps_cons_data (c : String) (l : List String) :
    (joinComps (c :: l)).data
      = c.data ++ (if l = [] then [] else '/' :: (joinComps l).data) := by
  by_cases h : l = []
  · subst h
    simp [joinComps]
  · simp [joinComps, h, String.data_append]

/-- Slash-free nonempty component lists join injectively. -/
theorem joinComps_inj : ∀ l₁ l₂ : List String, l₁ ≠ [] → l₂ ≠ [] →
    (∀ c ∈ l₁, ('/' : Char) ∉ c.data) → (∀ c ∈ l₂, ('/' : Char) ∉ c.data) →
    joinComps l₁ = joinComps l₂ → l₁ = l₂ := by
  intro l₁
  induction l₁ with
  | nil => intro l₂ h; cases h rfl
  | cons c₁ r₁ ih =>
    intro l₂ _ h2 hs1 hs2 he
    cases l₂ with
    | nil => cases h2 rfl
    | cons c₂ r₂ =>
      have hdata := congrArg String.data he
      rw [joinComps_cons_data, joinComps_cons_data] at hdata
      have hsep1 : (if r₁ = [] then ([] : List Char) else '/' :: (joinComps r₁).data) = []
          ∨ ∃ x, (if r₁ = [] then ([] : List Char) else '/' :: (joinComps r₁).data) = '/' :: x := by
        by_cases h : r₁ = [] <;> simp [h]
      have hsep2 : (if r₂ = [] then ([] : List Char) else '/' :: (joinComps r₂).data) = []
          ∨ ∃ x, (if r₂ = [] then ([] : List Char) else '/' :: (joinComps r₂).data) = '/' :: x := by
        by_cases h : r₂ = [] <;> simp [h]
      have hc : c₁ = c₂ :=
        String.ext (eq_of_append_sep c₁.data c₂.data _ _ hdata
          (hs1 c₁ (List.mem_cons_self c₁ r₁)) (hs2 c₂ (List.mem_cons_self c₂ r₂))
          hsep1 hsep2)
      subst hc
      have htails := List.append_cancel_left hdata
      by_cases hr1 : r₁ = []
      · by_cases hr2 : r₂ = []
        · rw [hr1, hr2]
        · rw [if_pos hr1, if_neg hr2] at htails
          cases htails
      · by_cases hr2 : r₂ = []
        · rw [if_neg hr1, if_pos hr2] at htails
          cases htails
        · rw [if_neg hr1, if_neg hr2] at htails
          injection htails with _ htails2
          rw [ih r₂ hr1 hr2 (fun c hc => hs1 c (List.mem_cons.mpr (Or.inr hc)))
            (fun c hc => hs2 c (List.mem_cons.mpr (Or.inr hc))) (String.ext htails2)]

/-- Every visit is the walk root or the root joined with a nonempty list
of non-excluded, slash-free relative components. -/
theorem visits_decomp (ex : List String) (t : FsTree) (hwf : t.Wf) :
    ∀ path name, ∀ v ∈ flattenVisits ex path name t,
      v.1 = path ∨ ∃ comps : List String, comps ≠ []
        ∧ (∀ c ∈ comps, c ∉ ex ∧ ('/' : Char) ∉ c.data)
        ∧ v.1 = pathJoin path (joinComps comps) := by
  induction hwf with
  | node hnames hslash hwfs ih =>
    rename_i mtime files subdirs
    intro path name v hv
    by_cases hex : name ∈ ex
    · rw [flattenVisits, if_pos hex] at hv
      cases hv
    · rw [flattenVisits, if_neg hex, List.mem_cons] at hv
      rcases hv with rfl | hv
      · exact Or.inl rfl
      · rw [flattenChildren_eq, List.mem_flatten] at hv
        obtain ⟨l, hl, hvl⟩ := hv
        rw [List.mem_map] at hl
        obtain ⟨q, hq, rfl⟩ := hl
        by_cases hqex : q.1 ∈ ex
        · rw [flattenVisits_excluded ex (pathJoin path q.1) q.1 q.2 hqex] at hvl
          cases hvl
        · rcases ih q hq (pathJoin path q.1) q.1 v hvl with h | ⟨comps, hne, hprop, heq⟩
          · right
            refine ⟨[q.1], by simp, ?_, ?_⟩
            · intro c hc
              rw [List.mem_singleton] at hc
              subst hc
              exact ⟨hqex, hslash q hq⟩
            · rw [h]
              rfl
          · right
            refine ⟨q.1 :: comps, by simp, ?_, ?_⟩
            · intro c hc
              rw [List.mem_cons] at hc
              rcases hc with rfl | hc
              · exact ⟨hqex, hslash q hq⟩
              · exact hprop c hc
            · rw [heq, joinComps_cons_ne q.1 comps hne]
              show pathJoin path q.1 ++ "/" ++ joinComps comps
                = path ++ "/" ++ (q.1 ++ "/" ++ joinComps comps)
              rw [pathJoin]
              simp [String.append_assoc]

/-- C6.  Exclusion: with `d` on the exclusion list, no visit of the walk
descends through a directory named `d` (stated via the unique slash-free
component decomposition of visited paths), an excluded root yields no
visits and an empty post-scan state, and no key of the post-scan state —
stale prior entries included, since they are pruned — lies at or below a
directory named `d`. -/
theorem scan_excluded_never_present (root rootName : String) (exclude : List String)
    (t : FsTree) (st : ScanState) (hwf : t.Wf) (d : String) (hd : d ∈ exclude) :
    (∀ v ∈ flattenVisits exclude root rootName t,
        ¬ ∃ comps : List String, comps ≠ [] ∧ (∀ c ∈ comps, ('/' : Char) ∉ c.data)
            ∧ d ∈ comps ∧ v.1 = pathJoin root (joinComps comps))
  ∧ (rootName ∈ exclude → flattenVisits exclude root rootName t = []
        ∧ hmKeys (scan root rootName exclude t st).1.dirs = [])
  ∧ (∀ k ∈ hmKeys (scan root rootName exclude t st).1.dirs,
        ¬ ∃ comps : List String, comps ≠ [] ∧ (∀ c ∈ comps, ('/' : Char) ∉ c.data)
            ∧ d ∈ comps ∧ k = pathJoin root (joinComps comps)) := by
  have hpart1 : ∀ v ∈ flattenVisits exclude root rootName t,
      ¬ ∃ comps : List String, comps ≠ [] ∧ (∀ c ∈ comps, ('/' : Char) ∉ c.data)
          ∧ d ∈ comps ∧ v.1 = pathJoin root (joinComps comps) := by
    intro v hv hcon
    obtain ⟨comps, hne, hsl, hdin, hveq⟩ := hcon
    rcases visits_decomp exclude t hwf root rootName v hv with h | ⟨comps2, hne2, hprop2, heq2⟩
    · rw [h] at hveq
      have hd2 := congrArg String.data hveq
      rw [pathJoin_data] at hd2
      have hlen := congrArg List.length hd2
      simp at hlen
    · rw [heq2] at hveq
      have hd2 := congrArg String.data hveq
      rw [pathJoin_data, pathJoin_data] at hd2
      have htail := List.append_cancel_left hd2
      injection htail with _ htail2
      have hjc : joinComps comps2 = joinComps comps := String.ext htail2
      have hcc : comps2 = comps :=
        joinComps_inj comps2 comps hne2 hne (fun c hc => (hprop2 c hc).2) hsl hjc
      rw [← hcc] at hdin
      exact (hprop2 d hdin).1 hd
  refine ⟨hpart1, ?_, ?_⟩
  · intro hroot
    have hflat := flattenVisits_excluded exclude root rootName t hroot
    refine ⟨hflat, ?_⟩
    rw [List.eq_nil_iff_forall_not_mem]
    intro k hk
    have hmem := (scan_mem_keys root rootName exclude t st k).mp hk
    rw [hflat] at hmem
    cases hmem
  · intro k hk hex
    have hseen := (scan_mem_keys root rootName exclude t st k).mp hk
    rw [List.mem_map] at hseen
    obtain ⟨v, hv, rfl⟩ := hseen
    exact hpart1 v hv hex

/-- Witness for C3: staling the subdirectory entry of a concrete
two-directory tree rescans exactly that subdirectory. -/
theorem scan_invalidation_exact_witness :
    (⟨4, []⟩ : DirEntry) = ⟨4, scan_directory []⟩
    ∧ scan ("/r") ("r") [] (FsTree.node 3 [] [("a", FsTree.node 4 [] [])])
        ⟨hmInsert (scan ("/r") ("r") [] (FsTree.node 3 [] [("a", FsTree.node 4 [] [])]) ⟨[]⟩).1.dirs
          ("/r/a") ⟨5, []⟩⟩
      = ((scan ("/r") ("r") [] (FsTree.node 3 [] [("a", FsTree.node 4 [] [])]) ⟨[]⟩).1,
         ⟨(flattenVisits [] ("/r") ("r") (FsTree.node 3 [] [("a", FsTree.node 4 [] [])])).length - 1,
          1, 0⟩) := by
  have hwf : (FsTree.node 3 [] [("a", FsTree.node 4 [] [])]).Wf := by
    refine FsTree.Wf.node (by simp) ?_ ?_
    · intro p hp
      rw [List.mem_singleton] at hp
      subst hp
      decide
    · intro p hp
      rw [List.mem_singleton] at hp
      subst hp
      exact FsTree.Wf.node (by simp) (by simp) (by simp)
  exact scan_invalidation_exact ("/r") ("r") [] _ hwf ("/r/a", 4, [])
    (by decide) ⟨4, []⟩ (by decide) 5 (by decide)

/-- Witness for C5: a stale prior key is pruned and counted. -/
theorem scan_prunes_exactly_witness :
    ("/gone" : String) ∉ hmKeys (scan ("/r") ("r") [] (FsTree.node 3 [] [])
        ⟨[("/gone", ⟨7, []⟩)]⟩).1.dirs
  ∧ ("/r" : String) ∈ hmKeys (scan ("/r") ("r") [] (FsTree.node 3 [] [])
        ⟨[("/gone", ⟨7, []⟩)]⟩).1.dirs
  ∧ (scan ("/r") ("r") [] (FsTree.node 3 [] []) ⟨[("/gone", ⟨7, []⟩)]⟩).2.dirs_removed = 1 := by
  have h := scan_prunes_exactly ("/r") ("r") [] (FsTree.node 3 [] [])
    ⟨[("/gone", ⟨7, []⟩)]⟩
  refine ⟨h.1 ("/gone") (by decide) (by decide), h.2.1 ("/r") (by decide), ?_⟩
  rw [h.2.2]
  decide

/-- Witness for C6: with `skip` excluded, the sibling directory is
visited but no path through a `skip` component is reachable. -/
theorem scan_excluded_never_present_witness :
    ¬ ∃ comps : List String, comps ≠ [] ∧ (∀ c ∈ comps, ('/' : Char) ∉ c.data)
        ∧ ("skip" : String) ∈ comps
        ∧ ("/r/a" : String) = pathJoin ("/r") (joinComps comps) := by
  have hwf : (FsTree.node 3 []
      [("a", FsTree.node 5 [] []), ("skip", FsTree.node 4 [] [])]).Wf := by
    refine FsTree.Wf.node (by simp) ?_ ?_
    · intro p hp
      rw [List.mem_cons, List.mem_singleton] at hp
      rcases hp with rfl | rfl <;> decide
    · intro p hp
      rw [List.mem_cons, List.mem_singleton] at hp
      rcases hp with rfl | rfl <;>
        exact FsTree.Wf.node (by simp) (by simp) (by simp)
  exact (scan_excluded_never_present ("/r") ("r") ["skip"]
    (FsTree.node 3 [] [("a", FsTree.node 5 [] []), ("skip", FsTree.node 4 [] [])])
    ⟨[]⟩ hwf ("skip") (by decide)).1 ("/r/a", 5, []) (by decide)

/-- Witness for C8: a concrete fresh scan stores a sorted file list. -/
theorem scan_files_sorted_invariant_witness :
    List.Pairwise fileLe
      ((("/r", (⟨3, scan_directory [⟨"z.txt", 1, 1, 1⟩, ⟨"a.txt", 2, 2, 2⟩]⟩ : DirEntry))
        : String × DirEntry)).2.files := by
  refine scan_files_sorted_invariant.2.2.1 ("/r") ("r") []
    (FsTree.node 3 [⟨"z.txt", 1, 1, 1⟩, ⟨"a.txt", 2, 2, 2⟩] []) ⟨[]⟩ (by simp) _ ?_
  decide

/-- Witness for C10 on a one-directory tree. -/
theorem scan_keyset_invariant_witness :
    (("/r" : String) ∈ hmKeys (scan ("/r") ("r") [] (FsTree.node 3 [] []) ⟨[]⟩).1.dirs)
  ∧ (scan ("/r") ("r") [] (FsTree.node 3 [] []) ⟨[]⟩).2.dirs_cached
      + (scan ("/r") ("r") [] (FsTree.node 3 [] []) ⟨[]⟩).2.dirs_scanned
      = (scan ("/r") ("r") [] (FsTree.node 3 [] []) ⟨[]⟩).1.dirs.length := by
  have hwf : (FsTree.node 3 [] ([] : List (String × FsTree))).Wf :=
    FsTree.Wf.node (by simp) (by simp) (by simp)
  have h := scan_keyset_invariant ("/r") ("r") [] (FsTree.node 3 [] []) ⟨[]⟩ hwf (by decide)
  exact ⟨(h.1 ("/r")).mpr (by decide), h.2⟩

/-! ### Tree renderer

Embedding of `tree.rs`.  Two source collaborators enter as parameters:
the ICU collator (built deterministically in `render_tree` from fixed
options) is an arbitrary fixed comparator `coll`, and each compiled glob
`Pattern` is its `matches` predicate `String → Bool`.  Output is the list
of printed lines plus the directory and file counters.  The recursion
over the reconstructed hierarchy is bounded by explicit fuel; the claim
quantifies over the fuel, which is the same across compared runs. -/

/-- Byte-wise strict order on strings (the `Ord` keys of the source's
`BTreeMap`/`BTreeSet` reconstruction index; only the set contents, not
the comparison details, are observable in the output). -/
def strLt (a b : String) : Bool := charsLt a.data b.data

theorem strLt_irrefl_chars : ∀ as : List Char, charsLt as as = false := by
  intro as
  induction as with
  | nil => rfl
  | cons a as ih =>
    rw [← Bool.not_eq_true, charsLt_cons_iff]
    intro h
    rcases h with h | ⟨_, h⟩
    · omega
    · rw [ih] at h
      cases h

theorem strLt_ne (a b : String) (h : strLt a b = true) : a ≠ b := by
  intro he
  subst he
  rw [strLt, strLt_irrefl_chars] at h
  cases h

theorem strLt_asymm (a b : String) (h : strLt a b = true) : strLt b a = false :=
  charsLt_asymm a.data b.data h

theorem strLt_trans (a b c : String) (h1 : strLt a b = true) (h2 : strLt b c = true) :
    strLt a c = true :=
  charsLt_trans a.data b.data c.data h1 h2

theorem strLt_connex (a b : String) (h1 : strLt a b = false) (h2 : strLt b a = false) :
    a = b :=
  String.ext (charsLt_connex a.data b.data h1 h2)

/-- `BTreeSet<String>` model: insert into a sorted duplicate-free list. -/
def sinsert (x : String) : List String → List String
  | [] => [x]
  | y :: ys =>
    if strLt x y then x :: y :: ys
    else if x = y then y :: ys
    else y :: sinsert x ys

/-- `BTreeMap<PathBuf, BTreeSet<String>>` model: record `n` as a child
name of `p` (`children.entry(parent).or_default().insert(name)`). -/
def childAdd : List (String × List String) → String → String → List (String × List String)
  | [], p, n => [(p, [n])]
  | (q, s) :: rest, p, n =>
    if strLt p q then (p, [n]) :: (q, s) :: rest
    else if p = q then (q, sinsert n s) :: rest
    else (q, s) :: childAdd rest p n

/-- Last-slash split of a character list: characters before and after the
final slash. -/
def splitLast : List Char → Option (List Char × List Char)
  | [] => none
  | c :: cs =>
    match splitLast cs with
    | some (pre, post) => some (c :: pre, post)
    | none => if c = '/' then some ([], cs) else none

/-- `Path::parent` paired with `Path::file_name`, for the normal paths
the scanner stores (absolute or relative, no trailing slash): split at
the last slash; a bare root or empty string has no parent. -/
def splitParent (k : String) : Option (String × String) :=
  if k = "" ∨ k = "/" then none
  else
    match splitLast k.data with
    | none => some ("", k)
    | some (pre, post) =>
      if post = [] then none
      else some (if pre = [] then "/" else ⟨pre⟩, ⟨post⟩)

/-- Child-directory index of `render_tree` (`tree.rs` lines 44-56): for
each state key, register its base name under its parent. -/
def buildChildren (ks : List String) : List (String × List String) :=
  ks.foldl (fun m k =>
    match splitParent k with
    | some (p, n) => childAdd m p n
    | none => m) []

/-- `maybe_escape` (`tree.rs` lines 10-23): replace non-printable and
non-ASCII characters (anything not ASCII-graphic or a space) with a
question mark unless escaping is disabled. -/
def maybe_escape (name : String) (no_escape : Bool) : String :=
  if no_escape then name
  else ⟨name.data.map (fun c =>
    if (33 ≤ c.toNat ∧ c.toNat ≤ 126) ∨ c = ' ' then c else '?')⟩

/-- `name.starts_with('.')`. -/
def startsDot (s : String) : Bool :=
  match s.data with
  | [] => false
  | c :: _ => decide (c = '.')

/-- Entry in the merged directory listing (`tree.rs` `enum Entry`). -/
inductive Entry where
  | File (n : String)
  | Dir (n : String)
deriving DecidableEq, Repr

/-- The entry's name. -/
def Entry.name : Entry → String
  | Entry.File n => n
  | Entry.Dir n => n

/-- `merge_entries` (`tree.rs` lines 94-110): merge file names and child
directory names, drop hidden names unless requested and names matching
any ignore pattern, then stable-sort by the collator. -/
def merge_entries (files : List String) (child_dirs : List String)
    (patterns : List (String → Bool)) (show_hidden : Bool)
    (coll : String → String → Ordering) : List Entry :=
  ((files.map Entry.File ++ child_dirs.map Entry.Dir).filter
    (fun e =>
      if !show_hidden && startsDot (Entry.name e) then false
      else !(patterns.any (fun p => p (Entry.name e))))).insertionSort
    (fun a b => coll (Entry.name a) (Entry.name b) ≠ Ordering.gt)

mutual
/-- `render_dir` (`tree.rs` lines 112-165): list the cached files and
known child directories of `dir_path`, merge and sort them, and render
each entry with its connector and prefix, recursing into child
directories. -/
def render_dir (look : String → Option DirEntry) (children : List (String × List String))
    (patterns : List (String → Bool)) (coll : String → String → Ordering)
    (no_escape show_hidden : Bool) :
    Nat → String → String → List String × Nat × Nat
  | 0, _, _ => ([], 0, 0)
  | fuel + 1, dir_path, pfx =>
    let files := match look dir_path with
      | some d => d.files.map (fun f => f.filename)
      | none => []
    let child_dirs := (hmGet children dir_path).getD []
    let entries := merge_entries files child_dirs patterns show_hidden coll
    render_entries look children patterns coll no_escape show_hidden fuel
      dir_path pfx entries.length 0 entries
termination_by fuel _ _ => (fuel, 0, 0)

/-- The `for (i, entry)` loop body of `render_dir`, accumulating output
lines and the directory and file counters. -/
def render_entries (look : String → Option DirEntry) (children : List (String × List String))
    (patterns : List (String → Bool)) (coll : String → String → Ordering)
    (no_escape show_hidden : Bool) :
    Nat → String → String → Nat → Nat → List Entry → List String × Nat × Nat
  | _, _, _, _, _, [] => ([], 0, 0)
  | fuel, dir_path, pfx, total, i, e :: rest =>
    let connector := if i + 1 = total then "└── " else "├── "
    let child_prefix := if i + 1 = total then "    " else "│   "
    match e with
    | Entry.File n =>
      let r := render_entries look children patterns coll no_escape show_hidden
        fuel dir_path pfx total (i + 1) rest
      ((pfx ++ connector ++ maybe_escape n no_escape) :: r.1, r.2.1, r.2.2 + 1)
    | Entry.Dir n =>
      let sub := render_dir look children patterns coll no_escape show_hidden
        fuel (pathJoin dir_path n) (pfx ++ child_prefix)
      let r := render_entries look children patterns coll no_escape show_hidden
        fuel dir_path pfx total (i + 1) rest
      ((pfx ++ connector ++ maybe_escape n no_escape) :: (sub.1 ++ r.1),
       1 + sub.2.1 + r.2.1, sub.2.2 + r.2.2)
termination_by fuel _ _ _ _ l => (fuel, 1, l.length)
end

/-- `render_tree` (`tree.rs` lines 37-78): build the parent-to-children
index from the state's keys, print the root line, render recursively,
and return the output lines with the directory count (root included) and
file count. -/
def render_tree (dirs : List (String × DirEntry)) (root : String)
    (patterns : List (String → Bool)) (no_escape show_hidden : Bool)
    (coll : String → String → Ordering) (fuel : Nat) : List String × Nat × Nat :=
  let children := buildChildren (hmKeys dirs)
  let r := render_dir (fun k => hmGet dirs k) children patterns coll no_escape
    show_hidden fuel root ""
  (root :: r.1, 1 + r.2.1, r.2.2)

theorem strLt_irrefl (a : String) : strLt a a = false :=
  strLt_irrefl_chars a.data

/-- Set-insertions into the sorted child set commute. -/
theorem sinsert_comm_lt (x y : String) (hlt : strLt x y = true) :
    ∀ s, sinsert x (sinsert y s) = sinsert y (sinsert x s) := by
  have h1 := strLt_asymm x y hlt
  have h2 : y ≠ x := fun he => strLt_ne x y hlt he.symm
  intro s
  induction s with
  | nil => simp [sinsert, hlt, h1, h2]
  | cons z zs ih =>
    by_cases hyz : strLt y z = true
    · have hxz : strLt x z = true := strLt_trans x y z hlt hyz
      simp [sinsert, hyz, hxz, hlt, h1, h2]
    · have hyz' : strLt y z = false := by
        cases h : strLt y z
        · rfl
        · exact absurd h hyz
      by_cases hyz2 : y = z
      · subst hyz2
        simp [sinsert, strLt_irrefl y, hlt, h1, h2]
      · have hzy : strLt z y = true := by
          cases h : strLt z y
          · exact absurd (strLt_connex y z hyz' h) hyz2
          · rfl
        by_cases hxz : strLt x z = true
        · simp [sinsert, hyz', hyz2, hxz, h1, h2, hlt]
        · have hxz' : strLt x z = false := by
            cases h : strLt x z
            · rfl
            · exact absurd h hxz
          by_cases hxz2 : x = z
          · subst hxz2
            simp [sinsert, strLt_irrefl x, hyz', hyz2, h1, h2, hlt]
          · simp [sinsert, hyz', hyz2, hxz', hxz2, ih]

/-- Set-insertion commutes unconditionally. -/
theorem sinsert_comm (x y : String) (s : List String) :
    sinsert x (sinsert y s) = sinsert y (sinsert x s) := by
  by_cases hxy : x = y
  · subst hxy; rfl
  · cases hlt : strLt x y with
    | true => exact sinsert_comm_lt x y hlt s
    | false =>
      have hyx : strLt y x = true := by
        cases h2 : strLt y x
        · exact absurd (strLt_connex x y hlt h2) hxy
        · rfl
      exact (sinsert_comm_lt y x hyx s).symm

/-- Two child registrations under the same parent commute. -/
theorem childAdd_comm_eq (p n₁ n₂ : String) :
    ∀ m, childAdd (childAdd m p n₁) p n₂ = childAdd (childAdd m p n₂) p n₁ := by
  intro m
  induction m with
  | nil =>
    simp [childAdd, strLt_irrefl p]
    exact sinsert_comm n₂ n₁ []
  | cons q rest ih =>
    obtain ⟨q1, s⟩ := q
    by_cases h1 : strLt p q1 = true
    · simp [childAdd, h1, strLt_irrefl p]
      exact sinsert_comm n₂ n₁ []
    · by_cases h2 : p = q1
      · subst h2
        simp [childAdd, h1, sinsert_comm]
      · simp [childAdd, h1, h2, ih]

/-- Child registrations under parents in strict order commute. -/
theorem childAdd_comm_lt (p₁ p₂ : String) (hlt : strLt p₁ p₂ = true) (n₁ n₂ : String) :
    ∀ m, childAdd (childAdd m p₁ n₁) p₂ n₂ = childAdd (childAdd m p₂ n₂) p₁ n₁ := by
  have ha := strLt_asymm p₁ p₂ hlt
  have hne : p₁ ≠ p₂ := strLt_ne p₁ p₂ hlt
  have hne' : p₂ ≠ p₁ := fun he => hne he.symm
  intro m
  induction m with
  | nil => simp [childAdd, hlt, ha, hne, hne']
  | cons q rest ih =>
    obtain ⟨q1, s⟩ := q
    by_cases hq2 : strLt p₂ q1 = true
    · have hq1 : strLt p₁ q1 = true := strLt_trans p₁ p₂ q1 hlt hq2
      simp [childAdd, hq1, hq2, hlt, ha, hne, hne']
    · have hq2' : strLt p₂ q1 = false := by
        cases h : strLt p₂ q1
        · rfl
        · exact absurd h hq2
      by_cases hq2e : p₂ = q1
      · subst hq2e
        simp [childAdd, hlt, ha, hne, hne', strLt_irrefl p₂]
      · have hq2gt : strLt q1 p₂ = true := by
          cases h : strLt q1 p₂
          · exact absurd (strLt_connex p₂ q1 hq2' h) hq2e
          · rfl
        by_cases hq1 : strLt p₁ q1 = true
        · simp [childAdd, hq1, hq2', hq2e, hlt, ha, hne, hne']
        · have hq1' : strLt p₁ q1 = false := by
            cases h : strLt p₁ q1
            · rfl
            · exact absurd h hq1
          by_cases hq1e : p₁ = q1
          · subst hq1e
            simp [childAdd, strLt_irrefl p₁, ha, hne']
          · simp [childAdd, hq1', hq1e, hq2', hq2e, ih]

/-- Child registrations commute unconditionally. -/
theorem childAdd_comm (m : List (String × List String)) (p₁ n₁ p₂ n₂ : String) :
    childAdd (childAdd m p₁ n₁) p₂ n₂ = childAdd (childAdd m p₂ n₂) p₁ n₁ := by
  by_cases he : p₁ = p₂
  · subst he
    exact childAdd_comm_eq p₁ n₁ n₂ m
  · cases hlt : strLt p₁ p₂ with
    | true => exact childAdd_comm_lt p₁ p₂ hlt n₁ n₂ m
    | false =>
      have hyx : strLt p₂ p₁ = true := by
        cases h2 : strLt p₂ p₁
        · exact absurd (strLt_connex p₁ p₂ hlt h2) he
        · rfl
      exact (childAdd_comm_lt p₂ p₁ hyx n₂ n₁ m).symm

/-- The child-index is a pure function of the key set: building it from
any permutation of the key list gives the same index. -/
theorem buildChildren_perm (ks₁ ks₂ : List String) (hperm : ks₁.Perm ks₂) :
    buildChildren ks₁ = buildChildren ks₂ := by
  haveI : RightCommutative (fun (m : List (String × List String)) (k : String) =>
      match splitParent k with
      | some (p, n) => childAdd m p n
      | none => m) := by
    refine ⟨fun m k₁ k₂ => ?_⟩
    cases h1 : splitParent k₁ with
    | none => cases h2 : splitParent k₂ <;> simp [h1, h2]
    | some pn1 =>
      cases h2 : splitParent k₂ with
      | none => simp [h1, h2]
      | some pn2 =>
        obtain ⟨p1, n1⟩ := pn1
        obtain ⟨p2, n2⟩ := pn2
        simp [h1, h2, childAdd_comm]
  exact hperm.foldl_eq []

/-- Lookups agree across permutations of a duplicate-free map. -/
theorem hmGet_perm {β : Type} (m₁ m₂ : List (String × β)) (hperm : m₁.Perm m₂)
    (k : String) : (hmKeys m₁).Nodup → hmGet m₁ k = hmGet m₂ k := by
  induction hperm with
  | nil => intro _; rfl
  | cons p h ih =>
    intro hnd
    rw [hmKeys_cons, List.nodup_cons] at hnd
    obtain ⟨k', v⟩ := p
    by_cases h2 : k' = k <;> simp [hmGet, h2, ih hnd.2]
  | swap x y l =>
    intro hnd
    rw [hmKeys_cons, hmKeys_cons, List.nodup_cons, List.nodup_cons] at hnd
    obtain ⟨x1, x2⟩ := x
    obtain ⟨y1, y2⟩ := y
    have hxy : y1 ≠ x1 := by
      intro he
      exact hnd.1 (by rw [he]; exact List.mem_cons_self x1 (hmKeys l))
    by_cases h1 : y1 = k <;> by_cases h2 : x1 = k
    · exact absurd (h1.trans h2.symm) hxy
    · simp [hmGet, h1, h2]
    · simp [hmGet, h1, h2]
    · simp [hmGet, h1, h2]
  | trans h1 h2 ih1 ih2 =>
    intro hnd
    rw [ih1 hnd]
    exact ih2 ((h1.map Prod.fst).nodup hnd)

/-- C9.  Tree-render determinism: for a fixed state content, root path
and presentation options (ignore-pattern predicates, hidden-file flag,
escape flag, collator, recursion fuel), the rendered lines and the
directory and file counts are identical however the state map's entries
are ordered — rendering is a pure function of the state, so repeated
invocations produce byte-for-byte identical output. -/
theorem render_tree_deterministic (dirs₁ dirs₂ : List (String × DirEntry))
    (hperm : dirs₁.Perm dirs₂) (hnd : (hmKeys dirs₁).Nodup)
    (root : String) (patterns : List (String → Bool)) (no_escape show_hidden : Bool)
    (coll : String → String → Ordering) (fuel : Nat) :
    render_tree dirs₁ root patterns no_escape show_hidden coll fuel
      = render_tree dirs₂ root patterns no_escape show_hidden coll fuel := by
  rw [render_tree, render_tree]
  have hlook : (fun k => hmGet dirs₁ k) = (fun k => hmGet dirs₂ k) :=
    funext (fun k => hmGet_perm dirs₁ dirs₂ hperm k hnd)
  have hchild : buildChildren (hmKeys dirs₁) = buildChildren (hmKeys dirs₂) :=
    buildChildren_perm (hmKeys dirs₁) (hmKeys dirs₂) (hperm.map Prod.fst)
  rw [hlook, hchild]

/-- Witness for C9: the two orderings of a concrete two-entry state
render identically. -/
theorem render_tree_deterministic_witness :
    render_tree [("/r", ⟨3, []⟩), ("/r/a", ⟨4, [⟨"f.txt", 1, 1, 1⟩]⟩)] ("/r") []
        false false (fun a b => if strLt a b then Ordering.lt
          else if a = b then Ordering.eq else Ordering.gt) 5
      = render_tree [("/r/a", ⟨4, [⟨"f.txt", 1, 1, 1⟩]⟩), ("/r", ⟨3, []⟩)] ("/r") []
        false false (fun a b => if strLt a b then Ordering.lt
          else if a = b then Ordering.eq else Ordering.gt) 5 :=
  render_tree_deterministic
    [("/r", ⟨3, []⟩), ("/r/a", ⟨4, [⟨"f.txt", 1, 1, 1⟩]⟩)]
    [("/r/a", ⟨4, [⟨"f.txt", 1, 1, 1⟩]⟩), ("/r", ⟨3, []⟩)]
    (List.Perm.swap _ _ _) (by decide) ("/r") [] false false _ 5
